import Mathlib

/-!
# kafka-to-db: the batching worker pool (`internal/worker/pool.go`)

A shallow embedding of the Go package `worker` and theorems about it.

Modelling conventions

* Go `int`, `int32`, `int64` and `time.Duration` values are Lean `Int`s; where the
  source does arithmetic on them the 64-bit two's-complement wrap-around is explicit
  (`wrapInt64`, `toUint64`, `shlInt64`).  `int` is taken to be 64 bits wide.
* Go `[]byte` and `string` are byte lists; `string(b)` keeps the bytes of `b`.
* A Go `map[string][]byte` is an association list with at most one entry per key.
* Calls that leave the pool (the sink, the acknowledgment handle, the two callbacks,
  the logger, the `go` statement) are recorded, in program order, as `Effect`s.
* The sink is an arbitrary implementation of the `Processor` interface: a transition
  function over a sink state of any type.
-/

namespace Worker

/-! ## Machine integers and durations -/

/-- Two's-complement wrap-around of a mathematical integer into `int64`. -/
def wrapInt64 (x : Int) : Int := (x + 2 ^ 63) % 2 ^ 64 - 2 ^ 63

/-- Go conversion `uint(x)` of an `int` on a 64-bit platform. -/
def toUint64 (x : Int) : Nat := (x % 2 ^ 64).toNat

/-- Go `x << s` on an `int64` operand with an unsigned shift count: counts of 64 and
more shift every bit out. -/
def shlInt64 (x : Int) (s : Nat) : Int :=
  if s < 64 then wrapInt64 (x * 2 ^ s) else 0

/-- Go `time.Millisecond`, in nanoseconds. -/
def Millisecond : Int := 1000000

/-- Go `time.Second`, in nanoseconds. -/
def Second : Int := 1000 * Millisecond

/-! ## Data model -/

/-- Go `[]byte`. -/
abbrev Bytes := List (Fin 256)

/-- Go `string`. -/
abbrev GoString := List (Fin 256)

/-- Go conversion `string(b)` of a byte slice. -/
def stringOfBytes (b : Bytes) : GoString := b

/-- Go `error` values that are not nil. -/
structure GoError where
  msg : String
  deriving DecidableEq, Repr

/-- The type `sarama.RecordHeader`. -/
structure RecordHeader where
  Key : Bytes
  Value : Bytes
  deriving DecidableEq, Repr

/-- The type `sarama.ConsumerMessage` (the fields the pool reads). -/
structure ConsumerMessage where
  Headers : List RecordHeader
  Timestamp : Int
  Key : Bytes
  Value : Bytes
  Topic : GoString
  Partition : Int
  Offset : Int
  deriving DecidableEq, Repr

/-- The interface `sarama.ConsumerGroupSession`: the pool only ever calls `MarkMessage`
on it, so a session is represented by a handle naming it. -/
abbrev ConsumerGroupSession := Nat

/-- Job wraps a Kafka message together with its consumer session. -/
structure Job where
  Message : ConsumerMessage
  Session : ConsumerGroupSession
  Attempts : Int
  deriving DecidableEq, Repr

/-- Go `map[string][]byte`. -/
abbrev GoMap := List (GoString × Bytes)

/-- Go `make(map[string][]byte, n)`: an empty map (the size hint has no visible effect). -/
def makeMap (_n : Nat) : GoMap := []

/-- Go `m[k] = v`: overwrite the entry of `k` when there is one, add one otherwise. -/
def mapStore : GoMap → GoString → Bytes → GoMap
  | [], k, v => [(k, v)]
  | (k0, v0) :: rest, k, v =>
    if k0 = k then (k, v) :: rest else (k0, v0) :: mapStore rest k v

/-- Go `v, ok := m[k]`. -/
def mapLoad : GoMap → GoString → Option Bytes
  | [], _ => none
  | (k0, v0) :: rest, k => if k0 = k then some v0 else mapLoad rest k

/-- Record is the payload handed to the Processor implementation. -/
structure Record where
  Topic : GoString
  Partition : Int
  Offset : Int
  Key : Bytes
  Value : Bytes
  Headers : GoMap
  Timestamp : Int
  deriving DecidableEq, Repr

/-- Processor writes records to durable storage.  An implementation may keep state of
its own (type `σ`); `none` is the nil error. -/
structure Processor (σ : Type) where
  ProcessBatch : σ → List Record → σ × Option GoError

/-- The function stored in `Options.OnError`. -/
inductive ErrorHook where
  | user (id : Nat)
  | logPrintf
  deriving DecidableEq, Repr

/-- The function stored in `Options.OnSuccess`. -/
inductive SuccessHook where
  | user (id : Nat)
  | noop
  deriving DecidableEq, Repr

/-- Options tune the worker pool behaviour.  A callback field is `none` when nil. -/
structure Options where
  WorkerCount : Int
  JobBuffer : Int
  BatchSize : Int
  FlushEvery : Int
  MaxRetries : Int
  OnError : Option ErrorHook
  OnSuccess : Option SuccessHook
  deriving DecidableEq, Repr

/-- A buffered Go channel of jobs: queued elements (oldest first), capacity, and whether
`close` has been called on it. -/
structure Chan where
  buf : List Job
  cap : Nat
  closed : Bool
  deriving DecidableEq, Repr

/-- How a call ends: it returns, it blocks forever in the given state, or it panics. -/
inductive Outcome (α : Type) where
  | ret (a : α)
  | blocks
  | panics
  deriving DecidableEq, Repr

/-- Go `make(chan Job, n)` on a runtime that allocates channels of at most `limit` jobs:
a negative size and a size above the limit panic ("makechan: size out of range"). -/
def makeChan (limit : Nat) (n : Int) : Outcome Chan :=
  if n < 0 ∨ (limit : Int) < n then .panics
  else .ret { buf := [], cap := n.toNat, closed := false }

/-- The size check of `makechan` in the Go runtime on a 64-bit platform, for the 32-byte
`Job` (a pointer, an interface value, an int): `32 * n` must not exceed
`maxAlloc - hchanSize = 2^48 - 96`.  (The allocation itself can still run out of memory
below this size; `limit` stands for whatever the runtime at hand allows.) -/
def chanLimit64 : Nat := (2 ^ 48 - 96) / 32

/-- Pool fans out Kafka jobs to workers with batching support.  The fields `wg` and `mu`
are synchronisation only; `mu` appears in the interleaving model below. -/
structure Pool (σ : Type) where
  processor : Processor σ
  opts : Options
  jobs : Chan
  closed : Bool

/-- What the pool does to the outside world, in program order. -/
inductive Effect where
  | ProcessBatch (records : List Record)
  | MarkMessage (session : ConsumerGroupSession) (msg : ConsumerMessage)
  | OnSuccess (batchSize : Int)
  | OnError (cause : GoError)
  | LogDrop (offset : Int) (attempts : Int) (cause : GoError)
  | GoResubmit (job : Job) (backoff : Int)
  deriving DecidableEq, Repr

/-! ## `NewPool` -/

/-- Lines 58-78 of `NewPool`: the options with a default in place of every unset field.
Each `if opts.F <= 0 { opts.F = d }` of the source is the assignment
`opts.F = if opts.F <= 0 then d else opts.F`. -/
def withDefaults (opts : Options) : Options :=
  let opts := { opts with WorkerCount := if opts.WorkerCount ≤ 0 then 32 else opts.WorkerCount }
  let opts := { opts with JobBuffer := if opts.JobBuffer ≤ 0 then 4096 else opts.JobBuffer }
  let opts := { opts with BatchSize := if opts.BatchSize ≤ 0 then 100 else opts.BatchSize }
  let opts := { opts with
    FlushEvery := if opts.FlushEvery ≤ 0 then 25 * Millisecond else opts.FlushEvery }
  let opts := { opts with MaxRetries := if opts.MaxRetries ≤ 0 then 5 else opts.MaxRetries }
  let opts := { opts with
    OnError := if opts.OnError = none then some ErrorHook.logPrintf else opts.OnError }
  let opts := { opts with
    OnSuccess := if opts.OnSuccess = none then some SuccessHook.noop else opts.OnSuccess }
  opts

/-- NewPool allocates a pool ready to accept jobs.  `limit` is the largest channel the
runtime allocates; above it `make(chan Job, opts.JobBuffer)` panics and no pool is
returned. -/
def NewPool {σ : Type} (limit : Nat) (processor : Processor σ) (opts : Options) :
    Outcome (Pool σ) :=
  let opts := withDefaults opts
  match makeChan limit opts.JobBuffer with
  | .ret jobs => .ret { processor := processor, opts := opts, jobs := jobs, closed := false }
  | .blocks => .blocks
  | .panics => .panics

/-! ## `handleFailure` -/

/-- The delay computed at lines 195-198 of `pool.go` from the incremented attempt count:
`time.Duration(1<<uint(attempts-1)) * 100 * time.Millisecond`, capped at five seconds.
The untyped constant `1` takes the type `time.Duration`, so the shift and both products
are `int64` operations. -/
def backoff (attempts : Int) : Int :=
  let b := wrapInt64 (wrapInt64 (shlInt64 1 (toUint64 (wrapInt64 (attempts - 1))) * 100)
    * Millisecond)
  if b > 5 * Second then 5 * Second else b

/-- The method `Pool.handleFailure`: report the cause, then either drop the job or start
the goroutine that re-submits it after the backoff. -/
def Pool.handleFailure {σ : Type} (p : Pool σ) (job : Job) (cause : GoError) : List Effect :=
  let called := [Effect.OnError cause]
  if job.Attempts ≥ p.opts.MaxRetries then
    called ++ [Effect.LogDrop job.Message.Offset job.Attempts cause]
  else
    let job := { job with Attempts := wrapInt64 (job.Attempts + 1) }
    called ++ [Effect.GoResubmit job (backoff job.Attempts)]

/-! ## The worker: `flush` and the event loop of `runWorker` -/

/-- Lines 139-142: the header list of a message flattened into a map, one store per
header, in list order. -/
def flattenHeaders (hs : List RecordHeader) : GoMap :=
  hs.foldl (fun headers h => mapStore headers (stringOfBytes h.Key) h.Value) (makeMap hs.length)

/-- Lines 139-151: the record appended for one buffered job. -/
def toRecord (job : Job) : Record :=
  { Topic := job.Message.Topic
    Partition := job.Message.Partition
    Offset := job.Message.Offset
    Key := job.Message.Key
    Value := job.Message.Value
    Headers := flattenHeaders job.Message.Headers
    Timestamp := job.Message.Timestamp }

/-- What one piece of worker code did: its effects, the sink state and the worker's buffer
afterwards. -/
structure Flushed (σ : Type) where
  effects : List Effect
  sink : σ
  buffer : List Job

/-- The closure `flush` of `runWorker` (lines 133-166), run on the worker's buffer. -/
def Pool.flush {σ : Type} (p : Pool σ) (_force : Bool) (sink : σ) (buffer : List Job) :
    Flushed σ :=
  if buffer.length = 0 then
    { effects := [], sink := sink, buffer := buffer }
  else
    let records := buffer.foldl (fun records job => records ++ [toRecord job]) []
    let res := p.processor.ProcessBatch sink records
    match res.2 with
    | some err =>
      { effects := Effect.ProcessBatch records ::
          buffer.foldl (fun done job => done ++ p.handleFailure job err) []
        sink := res.1
        buffer := buffer.take 0 }
    | none =>
      { effects := Effect.ProcessBatch records ::
          (buffer.foldl (fun done job => done ++ [Effect.MarkMessage job.Session job.Message]) []
            ++ [Effect.OnSuccess buffer.length])
        sink := res.1
        buffer := buffer.take 0 }

/-- The event a worker's `select` (lines 169-175) wakes up on. -/
inductive WorkerEvent where
  | ctxDone
  | tick
  | recv (job : Job)
  | recvClosed
  deriving DecidableEq, Repr

/-- One iteration of the loop of `runWorker` (lines 168-185) on the given event: what it
did, and whether the worker returned. -/
def Pool.handleEvent {σ : Type} (p : Pool σ) (sink : σ) (buffer : List Job) :
    WorkerEvent → Flushed σ × Bool
  | .ctxDone => (p.flush true sink buffer, true)
  | .tick => (p.flush false sink buffer, false)
  | .recvClosed => (p.flush true sink buffer, true)
  | .recv job =>
    let buffer := buffer ++ [job]
    if (buffer.length : Int) ≥ p.opts.BatchSize then
      (p.flush true sink buffer, false)
    else
      ({ effects := [], sink := sink, buffer := buffer }, false)

/-- One worker goroutine: its buffer, the sink, everything it did so far, and whether
`runWorker` has returned. -/
structure WorkerState (σ : Type) where
  buffer : List Job
  sink : σ
  trace : List Effect
  returned : Bool

/-- The worker handles one event; a worker that has returned handles none. -/
def Pool.runWorkerStep {σ : Type} (p : Pool σ) (w : WorkerState σ) (ev : WorkerEvent) :
    WorkerState σ :=
  if w.returned then w
  else
    let out := p.handleEvent w.sink w.buffer ev
    { buffer := out.1.buffer, sink := out.1.sink, trace := w.trace ++ out.1.effects,
      returned := out.2 }

/-- The method `Pool.runWorker` on a sequence of events, from `var buffer []Job`. -/
def Pool.runWorker {σ : Type} (p : Pool σ) (sink : σ) (evs : List WorkerEvent) :
    WorkerState σ :=
  evs.foldl p.runWorkerStep { buffer := [], sink := sink, trace := [], returned := false }

/-! ## `Submit` and `Stop`, one call at a time -/

/-- Go `c <- job` with no receiver waiting: panics on a closed channel, enqueues when
there is room, blocks otherwise. -/
def Chan.send (c : Chan) (job : Job) : Outcome Chan :=
  if c.closed then .panics
  else if c.buf.length < c.cap then .ret { c with buf := c.buf ++ [job] }
  else .blocks

/-- Go `close(c)`: panics when the channel is closed already. -/
def Chan.close (c : Chan) : Outcome Chan :=
  if c.closed then .panics else .ret { c with closed := true }

/-- Submit queues a job for processing, returning false when the pool is shutting down.
This is a call that no other goroutine interleaves with. -/
def Pool.Submit {σ : Type} (p : Pool σ) (job : Job) : Outcome (Bool × Pool σ) :=
  if p.closed then .ret (false, p)
  else if p.jobs.closed then .panics
  else if p.jobs.buf.length < p.jobs.cap then
    .ret (true, { p with jobs := { p.jobs with buf := p.jobs.buf ++ [job] } })
  else
    match p.jobs.send job with
    | .ret c => .ret (true, { p with jobs := c })
    | .blocks => .blocks
    | .panics => .panics

/-- Stop waits for workers to finish draining.  This is a call that no other goroutine
interleaves with; `p.wg.Wait()` changes no field of the pool. -/
def Pool.Stop {σ : Type} (p : Pool σ) : Outcome (Pool σ) :=
  if p.closed then .ret p
  else
    let p := { p with closed := true }
    match p.jobs.close with
    | .ret c => .ret { p with jobs := c }
    | .blocks => .blocks
    | .panics => .panics

/-- A call on the pool. -/
inductive Call where
  | Submit (job : Job)
  | Stop
  deriving DecidableEq, Repr

/-- One call: the value it returns (`Stop` returns none) and the pool afterwards. -/
def Pool.call {σ : Type} (p : Pool σ) : Call → Outcome (Option Bool × Pool σ)
  | .Submit job =>
    match p.Submit job with
    | .ret (b, q) => .ret (some b, q)
    | .blocks => .blocks
    | .panics => .panics
  | .Stop =>
    match p.Stop with
    | .ret q => .ret (none, q)
    | .blocks => .blocks
    | .panics => .panics

/-- A sequence of calls, one after the other: the values returned and the pool at the end. -/
def Pool.calls {σ : Type} (p : Pool σ) : List Call → Outcome (List (Option Bool) × Pool σ)
  | [] => .ret ([], p)
  | c :: cs =>
    match p.call c with
    | .ret (r, q) =>
      match q.calls cs with
      | .ret (rs, q2) => .ret (r :: rs, q2)
      | .blocks => .blocks
      | .panics => .panics
    | .blocks => .blocks
    | .panics => .panics

/-! ## `Submit` racing `Stop`: the two calls as interleaved steps -/

/-- The lock `p.mu`: whether a writer holds it, and how many readers do. -/
structure RWMutex where
  writer : Bool
  readers : Nat
  deriving DecidableEq, Repr

/-- Where a goroutine running `Submit` stands (line numbers of `pool.go`). -/
inductive SubmitPC where
  | atRLock          -- 109
  | atCheck          -- 110
  | atRUnlockClosed  -- 111, 112
  | atRUnlock        -- 114
  | atSelect         -- 116, 117
  | atSend           -- 120
  | returned (accepted : Bool)
  | panicked
  deriving DecidableEq, Repr

/-- Where a goroutine running `Stop` stands (line numbers of `pool.go`). -/
inductive StopPC where
  | atLock           -- 96
  | atCheck          -- 97
  | atUnlockClosed   -- 98, 99
  | atSetClosed      -- 101
  | atClose          -- 102
  | atUnlock         -- 103
  | atWait           -- 104
  | returned
  | panicked
  deriving DecidableEq, Repr

/-- One goroutine in `Submit(job)` and one in `Stop`, on the same pool. -/
structure Race (σ : Type) where
  pool : Pool σ
  mu : RWMutex
  job : Job
  submit : SubmitPC
  stop : StopPC

/-- The next step of the `Submit` goroutine; none when it cannot move (it waits for the
lock or for room in the queue, or it is done). -/
def Race.stepSubmit {σ : Type} (s : Race σ) : Option (Race σ) :=
  match s.submit with
  | .atRLock =>
    if s.mu.writer then none
    else some { s with mu := { s.mu with readers := s.mu.readers + 1 }, submit := .atCheck }
  | .atCheck =>
    some { s with submit := if s.pool.closed then .atRUnlockClosed else .atRUnlock }
  | .atRUnlockClosed =>
    some { s with mu := { s.mu with readers := s.mu.readers - 1 }, submit := .returned false }
  | .atRUnlock =>
    some { s with mu := { s.mu with readers := s.mu.readers - 1 }, submit := .atSelect }
  | .atSelect =>
    if s.pool.jobs.closed then some { s with submit := .panicked }
    else if s.pool.jobs.buf.length < s.pool.jobs.cap then
      some { s with
        pool := { s.pool with jobs := { s.pool.jobs with buf := s.pool.jobs.buf ++ [s.job] } }
        submit := .returned true }
    else some { s with submit := .atSend }
  | .atSend =>
    match s.pool.jobs.send s.job with
    | .ret c => some { s with pool := { s.pool with jobs := c }, submit := .returned true }
    | .blocks => none
    | .panics => some { s with submit := .panicked }
  | .returned _ => none
  | .panicked => none

/-- The next step of the `Stop` goroutine; none when it cannot move.  No worker runs in
this model, so `p.wg.Wait()` returns at once. -/
def Race.stepStop {σ : Type} (s : Race σ) : Option (Race σ) :=
  match s.stop with
  | .atLock =>
    if s.mu.writer || decide (0 < s.mu.readers) then none
    else some { s with mu := { s.mu with writer := true }, stop := .atCheck }
  | .atCheck =>
    some { s with stop := if s.pool.closed then .atUnlockClosed else .atSetClosed }
  | .atUnlockClosed =>
    some { s with mu := { s.mu with writer := false }, stop := .returned }
  | .atSetClosed =>
    some { s with pool := { s.pool with closed := true }, stop := .atClose }
  | .atClose =>
    match s.pool.jobs.close with
    | .ret c => some { s with pool := { s.pool with jobs := c }, stop := .atUnlock }
    | .blocks => none
    | .panics => some { s with stop := .panicked }
  | .atUnlock =>
    some { s with mu := { s.mu with writer := false }, stop := .atWait }
  | .atWait => some { s with stop := .returned }
  | .returned => none
  | .panicked => none

/-- Which of the two goroutines the scheduler runs next. -/
inductive Thread where
  | submit
  | stop
  deriving DecidableEq, Repr

/-- The scheduler picks a goroutine; one that cannot move leaves the state as it is.  A
panic ends the program. -/
def Race.step {σ : Type} (s : Race σ) (t : Thread) : Race σ :=
  if s.submit = .panicked ∨ s.stop = .panicked then s
  else
    match t with
    | .submit => (s.stepSubmit).getD s
    | .stop => (s.stepStop).getD s

/-- A whole schedule. -/
def Race.run {σ : Type} (s : Race σ) (sched : List Thread) : Race σ :=
  sched.foldl Race.step s

/-- Both calls about to start on pool `p`, the lock free. -/
def Race.start {σ : Type} (p : Pool σ) (job : Job) : Race σ :=
  { pool := p, mu := { writer := false, readers := 0 }, job := job,
    submit := .atRLock, stop := .atLock }

/-! ## The running pool: source, queue, workers, retry goroutines, shutdown -/

/-- One worker goroutine of the running pool: its buffer, and whether `runWorker` has
returned. -/
structure Slot where
  buffer : List Job
  returned : Bool
  deriving DecidableEq, Repr

/-- A started pool: the shared queue (in `pool`), the sink, whether the context given to
`Start` is cancelled, the worker goroutines, the goroutines started by `handleFailure`
that wait in their `select` (each with its job and delay), and everything done so far.
Two logs are kept beside the trace: the jobs for which a `Submit` of the source returned
true, and the jobs whose re-submission goroutine ended without enqueuing them. -/
structure System (σ : Type) where
  pool : Pool σ
  sink : σ
  cancelled : Bool
  workers : List Slot
  timers : List (Job × Int)
  trace : List Effect
  accepted : List Job
  abandoned : List Job
  panicked : Bool

/-- What can happen next in a started pool. -/
inductive SysEvent where
  | submit (job : Job)     -- the source calls `p.Submit(job)`
  | cancel                 -- the context is cancelled
  | stop                   -- `Stop` is called: lines 96-103
  | ctxDone (worker : Nat) -- worker `i` takes `case <-ctx.Done()` (line 170)
  | recv (worker : Nat)    -- worker `i` takes `case job, ok := <-p.jobs` (line 175)
  | tick (worker : Nat)    -- worker `i` takes `case <-ticker.C` (line 173)
  | timer (k : Nat)        -- goroutine `k` takes `case <-time.After(backoff)` (line 203)
  | timerDone (k : Nat)    -- goroutine `k` takes `case <-ctx.Done()` (line 201)
  deriving DecidableEq, Repr

/-- The goroutines started among some effects. -/
def spawned : List Effect → List (Job × Int)
  | [] => []
  | Effect.GoResubmit job d :: rest => (job, d) :: spawned rest
  | _ :: rest => spawned rest

/-- Worker `i` handles event `ev` of its `select`; a worker that has returned does
nothing. -/
def System.worker {σ : Type} (s : System σ) (i : Nat) (ev : WorkerEvent) : System σ :=
  match s.workers[i]? with
  | none => s
  | some w =>
    if w.returned then s
    else
      let out := s.pool.handleEvent s.sink w.buffer ev
      { s with
        sink := out.1.sink
        workers := s.workers.set i { buffer := out.1.buffer, returned := out.2 }
        timers := s.timers ++ spawned out.1.effects
        trace := s.trace ++ out.1.effects }

/-- One event of the started pool.  An event that is not enabled changes nothing: no such
worker or goroutine, a worker that has returned, `ctx.Done()` while the context is not
cancelled, an empty open queue, a `Submit` that finds the queue full.  Each call of
`Submit` is one step here (its race with `Stop` is the interleaving model above).  The
goroutine of line 199 ends after its `p.Submit(job)`, whatever that returns, and on
`ctx.Done()`. -/
def System.act {σ : Type} (s : System σ) : SysEvent → System σ
  | .submit job =>
    match s.pool.Submit job with
    | .ret (true, q) => { s with pool := q, accepted := s.accepted ++ [job] }
    | .ret (false, q) => { s with pool := q }
    | .blocks => s
    | .panics => { s with panicked := true }
  | .cancel => { s with cancelled := true }
  | .stop =>
    match s.pool.Stop with
    | .ret q => { s with pool := q }
    | .blocks => s
    | .panics => { s with panicked := true }
  | .ctxDone i => if s.cancelled then s.worker i .ctxDone else s
  | .recv i =>
    match s.workers[i]? with
    | none => s
    | some w =>
      if w.returned then s
      else
        match s.pool.jobs.buf with
        | job :: rest =>
          System.worker
            { s with pool := { s.pool with jobs := { s.pool.jobs with buf := rest } } }
            i (.recv job)
        | [] => if s.pool.jobs.closed then s.worker i .recvClosed else s
  | .tick i => s.worker i .tick
  | .timer k =>
    match s.timers[k]? with
    | none => s
    | some (job, _) =>
      match s.pool.Submit job with
      | .ret (true, q) => { s with pool := q, timers := s.timers.eraseIdx k }
      | .ret (false, q) =>
        { s with pool := q, timers := s.timers.eraseIdx k,
                 abandoned := s.abandoned ++ [job] }
      | .blocks => s
      | .panics => { s with panicked := true }
  | .timerDone k =>
    if s.cancelled then
      match s.timers[k]? with
      | none => s
      | some (job, _) =>
        { s with timers := s.timers.eraseIdx k, abandoned := s.abandoned ++ [job] }
    else s

/-- One step of the program: a panic has ended it, or the event happens. -/
def System.step {σ : Type} (s : System σ) (ev : SysEvent) : System σ :=
  if s.panicked then s else s.act ev

/-- A sequence of events. -/
def System.run {σ : Type} (s : System σ) (evs : List SysEvent) : System σ :=
  evs.foldl System.step s

/-- The method `Pool.Start`: one worker goroutine per `WorkerCount`, each with an empty
buffer. -/
def System.Start {σ : Type} (p : Pool σ) (sink : σ) : System σ :=
  { pool := p, sink := sink, cancelled := false,
    workers := List.replicate p.opts.WorkerCount.toNat { buffer := [], returned := false },
    timers := [], trace := [], accepted := [], abandoned := [], panicked := false }

/-- The jobs that are somewhere in the pool: in the queue, in the buffer of a worker, or
with a goroutine that waits to re-submit them. -/
def System.live {σ : Type} (s : System σ) : List Job :=
  s.pool.jobs.buf ++ (s.workers.map Slot.buffer).flatten ++ s.timers.map Prod.fst

/-- Nothing is left to do: the queue and every buffer are empty and no goroutine waits
to re-submit. -/
def System.idle {σ : Type} (s : System σ) : Prop :=
  s.pool.jobs.buf = [] ∧ (∀ w ∈ s.workers, w.buffer = []) ∧ s.timers = []

/-- The acknowledgments (`MarkMessage` calls) among some effects. -/
def ackCalls : List Effect → List (ConsumerGroupSession × ConsumerMessage)
  | [] => []
  | Effect.MarkMessage s m :: rest => (s, m) :: ackCalls rest
  | _ :: rest => ackCalls rest

/-- The calls of `OnSuccess` among some effects, with their arguments. -/
def successCalls : List Effect → List Int
  | [] => []
  | Effect.OnSuccess n :: rest => n :: successCalls rest
  | _ :: rest => successCalls rest

/-- The batches handed to `ProcessBatch` among some effects. -/
def batches : List Effect → List (List Record)
  | [] => []
  | Effect.ProcessBatch rs :: rest => rs :: batches rest
  | _ :: rest => batches rest

/-- The causes `OnError` was called with among some effects. -/
def errorCauses : List Effect → List GoError
  | [] => []
  | Effect.OnError e :: rest => e :: errorCauses rest
  | _ :: rest => errorCauses rest

/-! ## What one worker dequeued -/

/-- The jobs a worker dequeued while it ran: those of its receive events up to the event
on which it returned. -/
def received : List WorkerEvent → List Job
  | [] => []
  | .recv job :: rest => job :: received rest
  | .tick :: rest => received rest
  | .ctxDone :: _ => []
  | .recvClosed :: _ => []

/-! ## Accounting for retries -/

/-- How many more failed batches a job takes part in before `handleFailure` drops it, when
every batch fails and nothing cancels its retries: the one that drops it, and one for each
attempt still allowed by `MaxRetries = m`. -/
def failuresLeft (m : Int) (job : Job) : Nat :=
  if job.Attempts ≥ m then 1 else (m - job.Attempts).toNat + 1

/-- The failures left to the jobs of a list whose record satisfies `P`. -/
def weight (m : Int) (P : Record → Bool) : List Job → Nat
  | [] => 0
  | job :: rest => (if P (toRecord job) then failuresLeft m job else 0) + weight m P rest

/-- How many records that satisfy `P` were handed to the sink, over all batches. -/
def handed (P : Record → Bool) (trace : List Effect) : Nat :=
  ((batches trace).flatten).countP P

/-- The event is one of a pool that keeps running: not the cancellation, not `Stop`. -/
def SysEvent.keepsRunning : SysEvent → Bool
  | .cancel => false
  | .stop => false
  | _ => true

/-- The event is a step of a worker or of a retry goroutine that found its timer. -/
def SysEvent.internal : SysEvent → Bool
  | .recv _ => true
  | .tick _ => true
  | .timer _ => true
  | _ => false

/-! ## The retry argument: invariants and measure -/

/-- What the retry argument needs of the pool: `MaxRetries` is `m` (a Go int) and the sink
fails every batch. -/
structure Failing {σ : Type} (p : Pool σ) (m : Nat) : Prop where
  retries : p.opts.MaxRetries = (m : Int)
  inRange : (m : Int) < 2 ^ 63
  fails : ∀ s rs, (p.processor.ProcessBatch s rs).2 ≠ none

/-- What one piece of worker code did with the jobs `before` it, in numbers: every job
was handed to the sink and lost one of its remaining failures, or is still buffered. -/
structure Accounted {σ : Type} (m : Nat) (P : Record → Bool) (before : List Job)
    (out : Flushed σ) : Prop where
  balance : handed P out.effects + weight (m : Int) P ((spawned out.effects).map Prod.fst)
      + weight (m : Int) P out.buffer = weight (m : Int) P before
  spawnedRange : ∀ j ∈ (spawned out.effects).map Prod.fst, -(2 : Int) ^ 63 ≤ j.Attempts
  bufferRange : ∀ j ∈ out.buffer, -(2 : Int) ^ 63 ≤ j.Attempts
  errs : (errorCauses out.effects).length = ((batches out.effects).flatten).length
  fewer : (spawned out.effects).length ≤ ((batches out.effects).flatten).length
  count : ((batches out.effects).flatten).length + out.buffer.length = before.length

/-- The invariant of the started pool against a failing sink: what was handed to the sink
so far, what is left to the jobs in the pool and what was left to the abandoned ones add
up to what the accepted jobs had in all. -/
structure Balanced {σ : Type} (m : Nat) (P : Record → Bool) (s : System σ) : Prop where
  balance : handed P s.trace + weight (m : Int) P s.live + weight (m : Int) P s.abandoned
      = weight (m : Int) P s.accepted
  range : ∀ j ∈ s.live, -(2 : Int) ^ 63 ≤ j.Attempts
  errs : (errorCauses s.trace).length = ((batches s.trace).flatten).length
  failing : Failing s.pool m

/-- The pool runs: nobody cancelled the context or called `Stop`, so the queue is open,
every worker is in its loop and no retry was abandoned. -/
structure Running {σ : Type} (s : System σ) : Prop where
  notCancelled : s.cancelled = false
  poolOpen : s.pool.closed = false
  chanOpen : s.pool.jobs.closed = false
  noPanic : s.panicked = false
  workersRun : ∀ w ∈ s.workers, w.returned = false
  nothingLost : s.abandoned = []
  room : 0 < s.pool.jobs.cap
  someWorker : 0 < s.workers.length

/-- The work the pool still has to do: three units for every failure left to a job in the
pool, two for every waiting re-submission, one for every queued job. -/
def System.work {σ : Type} (m : Int) (s : System σ) : Nat :=
  3 * weight m (fun _ => true) s.live + 2 * s.timers.length + s.pool.jobs.buf.length

/-- The record is the one of `job`. -/
def sameRecord (job : Job) (r : Record) : Bool := decide (r = toRecord job)

/-- How many times `Submit` accepted `job` from the source. -/
def submissions (job : Job) (accepted : List Job) : Nat :=
  accepted.countP fun j => sameRecord job (toRecord j)

/-! ## Example values -/

/-- A sink that accepts every batch. -/
def okSink : Processor Unit := { ProcessBatch := fun s _ => (s, none) }

/-- A sink that fails every batch. -/
def failingSink : Processor Unit :=
  { ProcessBatch := fun s _ => (s, some { msg := "sink down" }) }

/-- Options with every field unset. -/
def zeroOptions : Options :=
  { WorkerCount := 0, JobBuffer := 0, BatchSize := 0, FlushEvery := 0, MaxRetries := 0,
    OnError := none, OnSuccess := none }

/-- The pool `NewPool` returns for a sink and options when the queue can be allocated. -/
def builtPool {σ : Type} (processor : Processor σ) (opts : Options) : Pool σ :=
  { processor := processor, opts := withDefaults opts,
    jobs := { buf := [], cap := (withDefaults opts).JobBuffer.toNat, closed := false },
    closed := false }

/-- A message with offset `off` and the given headers. -/
def exampleMessage (off : Int) (hs : List RecordHeader) : ConsumerMessage :=
  { Headers := hs, Timestamp := 1700000000, Key := [1], Value := [2, 3], Topic := [116],
    Partition := 0, Offset := off }

/-- A fresh job for the message with offset `off`, on session 1. -/
def exampleJob (off : Int) : Job :=
  { Message := exampleMessage off [], Session := 1, Attempts := 0 }

/-- Options with two retries and one worker, every other field unset. -/
def twoRetries : Options := { zeroOptions with MaxRetries := 2, WorkerCount := 1 }

/-- A run that is cancelled after the first failure of a job: the job is submitted, the
worker receives it and flushes it on its tick, the context is cancelled, and the
goroutine that waits to re-submit the job takes `case <-ctx.Done()`. -/
def cancelledRun : System Unit :=
  (System.Start (builtPool failingSink twoRetries) ()).run
    [.submit (exampleJob 7), .recv 0, .tick 0, .cancel, .timerDone 0]

/-- A run in which `Stop` is called after the first failure of a job: the job is
submitted, the worker receives it and flushes it on its tick, `Stop` closes the pool, and
the `p.Submit(job)` of the waiting goroutine (line 204) returns false. -/
def stoppedRun : System Unit :=
  (System.Start (builtPool failingSink twoRetries) ()).run
    [.submit (exampleJob 7), .recv 0, .tick 0, .stop, .timer 0]

/-! # Theorems -/

/-! ## Shared lemmas -/

theorem foldl_snoc_eq_map {α β : Type} (f : α → β) (l : List α) (init : List β) :
    l.foldl (fun acc x => acc ++ [f x]) init = init ++ l.map f := by
  induction l generalizing init with
  | nil => simp
  | cons x xs ih => simp [ih]

theorem foldl_append_eq_flatMap {α β : Type} (f : α → List β) (l : List α) (init : List β) :
    l.foldl (fun acc x => acc ++ f x) init = init ++ l.flatMap f := by
  induction l generalizing init with
  | nil => simp
  | cons x xs ih => simp [ih]

theorem wrapInt64_of_range (x : Int) (lo : -(2 : Int) ^ 63 ≤ x) (hi : x < 2 ^ 63) :
    wrapInt64 x = x := by
  unfold wrapInt64
  have h : (x + 2 ^ 63) % 2 ^ 64 = x + 2 ^ 63 := by
    apply Int.emod_eq_of_lt <;> omega
  omega

theorem withDefaults_fields (o : Options) :
    (withDefaults o).WorkerCount = (if 0 < o.WorkerCount then o.WorkerCount else 32)
      ∧ (withDefaults o).JobBuffer = (if 0 < o.JobBuffer then o.JobBuffer else 4096)
      ∧ (withDefaults o).BatchSize = (if 0 < o.BatchSize then o.BatchSize else 100)
      ∧ (withDefaults o).FlushEvery
          = (if 0 < o.FlushEvery then o.FlushEvery else 25 * Millisecond)
      ∧ (withDefaults o).MaxRetries = (if 0 < o.MaxRetries then o.MaxRetries else 5) := by
  refine ⟨?_, ?_, ?_, ?_, ?_⟩ <;>
    simp only [withDefaults] <;> split_ifs <;>
    first
      | rfl
      | omega

/-- `NewPool` returns exactly when the queue size (after defaults) is within the limit
of the runtime, and then it returns `builtPool`. -/
theorem NewPool_ret_iff {σ : Type} (limit : Nat) (processor : Processor σ) (o : Options)
    (p : Pool σ) :
    NewPool limit processor o = .ret p
      ↔ (withDefaults o).JobBuffer ≤ (limit : Int) ∧ p = builtPool processor o := by
  have hpos : 0 < (withDefaults o).JobBuffer := by
    rw [(withDefaults_fields o).2.1]
    split_ifs <;> omega
  have hneg : ¬ (withDefaults o).JobBuffer < 0 := by omega
  unfold NewPool makeChan builtPool
  by_cases hlim : (limit : Int) < (withDefaults o).JobBuffer
  · have hle : ¬ (withDefaults o).JobBuffer ≤ (limit : Int) := by omega
    simp [hlim, hle]
  · have hle : (withDefaults o).JobBuffer ≤ (limit : Int) := by omega
    simp only [hneg, hlim, or_self, if_false, Outcome.ret.injEq, hle, true_and]
    exact eq_comm

theorem NewPool_panics_iff {σ : Type} (limit : Nat) (processor : Processor σ) (o : Options) :
    NewPool limit processor o = .panics ↔ (limit : Int) < (withDefaults o).JobBuffer := by
  have hpos : 0 < (withDefaults o).JobBuffer := by
    rw [(withDefaults_fields o).2.1]
    split_ifs <;> omega
  have hneg : ¬ (withDefaults o).JobBuffer < 0 := by omega
  unfold NewPool makeChan
  by_cases hlim : (limit : Int) < (withDefaults o).JobBuffer
  · simp [hlim]
  · simp [hneg, hlim]

/-! ## Backoff (C1) -/

/-- Up to 37 attempts the delay is `min(100ms * 2^(a-1), 5000ms)`: the shift and the two
products stay inside `int64`. -/
theorem backoff_eq_min_of_le_37 (a : Int) (h1 : 1 ≤ a) (h37 : a ≤ 37) :
    backoff a = min (100 * Millisecond * 2 ^ (a - 1).toNat) (5000 * Millisecond) := by
  interval_cases a <;> rfl

/-- C1 (fails on the code): with `MaxRetries = 38` a job that has already failed 37 times
is not dropped; `handleFailure` raises its attempts to 38 and computes the delay
`2^37 * 100 * 1000000` in `int64`, which wraps to a negative number of nanoseconds. That
delay is not `min(100ms * 2^37, 5000ms) = 5000ms`, lies below 100ms, and is smaller than
the delay of attempt 37.  This holds of every pool `NewPool` returns for such options. -/
theorem C1_backoff_wraps_at_38 {σ : Type} (limit : Nat) (proc : Processor σ) (o : Options)
    (job : Job) (cause : GoError) (p : Pool σ)
    (hp : NewPool limit proc { o with MaxRetries := 38 } = .ret p) :
    p.handleFailure { job with Attempts := 37 } cause
        = [Effect.OnError cause,
           Effect.GoResubmit { job with Attempts := 38 } (-4702848726509551616)]
      ∧ backoff 38 = -4702848726509551616
      ∧ backoff 38 ≠ min (100 * Millisecond * 2 ^ 37) (5000 * Millisecond)
      ∧ backoff 38 < 100 * Millisecond
      ∧ backoff 38 < backoff 37 := by
  refine ⟨?_, by rfl, by decide, by decide, by decide⟩
  obtain ⟨_, rfl⟩ := (NewPool_ret_iff limit proc _ p).mp hp
  have hm : (builtPool proc { o with MaxRetries := 38 }).opts.MaxRetries = 38 := by
    simp [builtPool, withDefaults]
  have hb : backoff 38 = -4702848726509551616 := by rfl
  have hw : wrapInt64 38 = 38 := by rfl
  simp [Pool.handleFailure, hm, hw, hb]

/-- C1 on the pool built from otherwise unset options with `MaxRetries = 38`. -/
theorem C1_backoff_wraps_at_38_witness :
    NewPool chanLimit64 failingSink { zeroOptions with MaxRetries := 38 }
        = .ret (builtPool failingSink { zeroOptions with MaxRetries := 38 })
      ∧ (builtPool failingSink { zeroOptions with MaxRetries := 38 }).handleFailure
          { exampleJob 7 with Attempts := 37 } { msg := "sink down" }
        = [Effect.OnError { msg := "sink down" },
           Effect.GoResubmit { exampleJob 7 with Attempts := 38 } (-4702848726509551616)] :=
  ⟨rfl, (C1_backoff_wraps_at_38 chanLimit64 failingSink zeroOptions (exampleJob 7)
    { msg := "sink down" } _ rfl).1⟩

/-! ## `handleFailure` (C3) -/

/-- C3: one call of `handleFailure` calls `OnError` exactly once, with the cause, and
acknowledges nothing; when `job.Attempts >= MaxRetries` it starts no re-submission;
otherwise it starts exactly one, of a job with the same Message and Session and with
Attempts one higher.  (`job.Attempts` and `MaxRetries` are Go ints, hence the range
hypotheses.) -/
theorem C3_handleFailure_once {σ : Type} (p : Pool σ) (job : Job) (cause : GoError)
    (hlo : -(2 : Int) ^ 63 ≤ job.Attempts) (hhi : p.opts.MaxRetries < 2 ^ 63) :
    errorCauses (p.handleFailure job cause) = [cause]
      ∧ ackCalls (p.handleFailure job cause) = []
      ∧ (job.Attempts ≥ p.opts.MaxRetries → spawned (p.handleFailure job cause) = [])
      ∧ (job.Attempts < p.opts.MaxRetries →
          ∃ next d, spawned (p.handleFailure job cause) = [(next, d)]
            ∧ next.Message = job.Message ∧ next.Session = job.Session
            ∧ next.Attempts = job.Attempts + 1) := by
  by_cases h : job.Attempts ≥ p.opts.MaxRetries
  · refine ⟨?_, ?_, ?_, ?_⟩
    · simp [Pool.handleFailure, h, errorCauses]
    · simp [Pool.handleFailure, h, ackCalls]
    · intro _
      simp [Pool.handleFailure, h, spawned]
    · intro h2
      omega
  · have hw : wrapInt64 (job.Attempts + 1) = job.Attempts + 1 :=
      wrapInt64_of_range _ (by omega) (by omega)
    refine ⟨?_, ?_, ?_, ?_⟩
    · simp [Pool.handleFailure, h, errorCauses]
    · simp [Pool.handleFailure, h, ackCalls]
    · intro h2
      exact absurd h2 h
    · intro _
      refine ⟨{ job with Attempts := job.Attempts + 1 }, backoff (job.Attempts + 1), ?_, rfl, rfl, rfl⟩
      simp [Pool.handleFailure, h, spawned, hw]

/-- C3 at a concrete pool and job: `MaxRetries = 5` and a job that failed twice. -/
theorem C3_handleFailure_once_witness :
    errorCauses ((builtPool (σ := Unit) ⟨fun s _ => (s, none)⟩
          ⟨0, 0, 0, 0, 0, none, none⟩).handleFailure
        ⟨⟨[], 0, [], [], [], 0, 7⟩, 1, 2⟩ ⟨"boom"⟩) = [⟨"boom"⟩]
      ∧ ackCalls ((builtPool (σ := Unit) ⟨fun s _ => (s, none)⟩
          ⟨0, 0, 0, 0, 0, none, none⟩).handleFailure
        ⟨⟨[], 0, [], [], [], 0, 7⟩, 1, 2⟩ ⟨"boom"⟩) = []
      ∧ ((2 : Int) ≥ 5 → spawned ((builtPool (σ := Unit) ⟨fun s _ => (s, none)⟩
          ⟨0, 0, 0, 0, 0, none, none⟩).handleFailure
        ⟨⟨[], 0, [], [], [], 0, 7⟩, 1, 2⟩ ⟨"boom"⟩) = [])
      ∧ ((2 : Int) < 5 → ∃ next d, spawned ((builtPool (σ := Unit) ⟨fun s _ => (s, none)⟩
          ⟨0, 0, 0, 0, 0, none, none⟩).handleFailure
        ⟨⟨[], 0, [], [], [], 0, 7⟩, 1, 2⟩ ⟨"boom"⟩) = [(next, d)]
            ∧ next.Message = ⟨[], 0, [], [], [], 0, 7⟩ ∧ next.Session = 1
            ∧ next.Attempts = 2 + 1) :=
  C3_handleFailure_once (builtPool (σ := Unit) ⟨fun s _ => (s, none)⟩ ⟨0, 0, 0, 0, 0, none, none⟩)
    ⟨⟨[], 0, [], [], [], 0, 7⟩, 1, 2⟩ ⟨"boom"⟩ (by decide) (by decide)

/-! ## `NewPool` (C6) -/

/-- C6 as stated fails: for `JobBuffer = 2^48` the call `make(chan Job, opts.JobBuffer)`
panics in the runtime ("makechan: size out of range"), so `NewPool` returns no pool: no
options are stored and no queue is allocated. -/
theorem C6_NewPool_panics_on_huge_JobBuffer :
    NewPool chanLimit64 okSink { zeroOptions with JobBuffer := 2 ^ 48 } = Outcome.panics
      ∧ ¬ ∃ p : Pool Unit,
          NewPool chanLimit64 okSink { zeroOptions with JobBuffer := 2 ^ 48 } = Outcome.ret p := by
  have h : NewPool chanLimit64 okSink { zeroOptions with JobBuffer := 2 ^ 48 }
      = Outcome.panics := (NewPool_panics_iff _ _ _).mpr (by decide)
  refine ⟨h, ?_⟩
  rintro ⟨p, hp⟩
  rw [h] at hp
  cases hp

/-- C6 (with the bound on the queue size): when the queue size after defaults (`JobBuffer`
if positive, else 4096) is within what the runtime allocates for a channel, `NewPool`
returns a pool.  Its
options keep every positive numeric field of the given ones and have the default (32,
4096, 100, 25ms, 5) in place of every other one, so all five are strictly positive; its
queue is empty and open with capacity equal to the stored `JobBuffer`, and the pool is not
closed. -/
theorem C6_NewPool_defaults {σ : Type} (limit : Nat) (processor : Processor σ) (o : Options)
    (hfit : (if 0 < o.JobBuffer then o.JobBuffer else 4096) ≤ (limit : Int)) :
    ∃ p : Pool σ, NewPool limit processor o = .ret p
      ∧ p.opts.WorkerCount = (if 0 < o.WorkerCount then o.WorkerCount else 32)
      ∧ p.opts.JobBuffer = (if 0 < o.JobBuffer then o.JobBuffer else 4096)
      ∧ p.opts.BatchSize = (if 0 < o.BatchSize then o.BatchSize else 100)
      ∧ p.opts.FlushEvery = (if 0 < o.FlushEvery then o.FlushEvery else 25 * Millisecond)
      ∧ p.opts.MaxRetries = (if 0 < o.MaxRetries then o.MaxRetries else 5)
      ∧ 0 < p.opts.WorkerCount
      ∧ 0 < p.opts.JobBuffer
      ∧ 0 < p.opts.BatchSize
      ∧ 0 < p.opts.FlushEvery
      ∧ 0 < p.opts.MaxRetries
      ∧ (p.jobs.cap : Int) = p.opts.JobBuffer
      ∧ p.jobs.buf = []
      ∧ p.jobs.closed = false
      ∧ p.closed = false := by
  have hms : (0 : Int) < 25 * Millisecond := by decide
  obtain ⟨h1, h2, h3, h4, h5⟩ := withDefaults_fields o
  have hret : NewPool limit processor o = .ret (builtPool processor o) :=
    (NewPool_ret_iff limit processor o _).mpr ⟨by rw [h2]; exact hfit, rfl⟩
  refine ⟨builtPool processor o, hret, h1, h2, h3, h4, h5, ?_, ?_, ?_, ?_, ?_, ?_, rfl, rfl, rfl⟩
  · show 0 < (withDefaults o).WorkerCount
    rw [h1]
    split_ifs <;> omega
  · show 0 < (withDefaults o).JobBuffer
    rw [h2]
    split_ifs <;> omega
  · show 0 < (withDefaults o).BatchSize
    rw [h3]
    split_ifs <;> omega
  · show 0 < (withDefaults o).FlushEvery
    rw [h4]
    split_ifs <;> omega
  · show 0 < (withDefaults o).MaxRetries
    rw [h5]
    split_ifs <;> omega
  · show (((withDefaults o).JobBuffer.toNat : Nat) : Int) = (withDefaults o).JobBuffer
    have hpos : 0 < (withDefaults o).JobBuffer := by
      rw [h2]
      split_ifs <;> omega
    omega

/-- C6 on options with every field unset: the defaults, a queue of 4096. -/
theorem C6_NewPool_defaults_witness :
    ∃ p : Pool Unit, NewPool chanLimit64 okSink zeroOptions = .ret p
      ∧ p.opts.WorkerCount = 32 ∧ p.opts.JobBuffer = 4096 ∧ p.opts.BatchSize = 100
      ∧ p.opts.FlushEvery = 25 * Millisecond ∧ p.opts.MaxRetries = 5
      ∧ p.jobs.cap = 4096 ∧ p.closed = false :=
  (C6_NewPool_defaults chanLimit64 okSink zeroOptions (by decide)).elim fun p hp =>
    ⟨p, hp.1, by simpa [zeroOptions] using hp.2.1, by simpa [zeroOptions] using hp.2.2.1,
      by simpa [zeroOptions] using hp.2.2.2.1, by simpa [zeroOptions] using hp.2.2.2.2.1,
      by simpa [zeroOptions] using hp.2.2.2.2.2.1,
      by
        have hcap := hp.2.2.2.2.2.2.2.2.2.2.2.1
        rw [hp.2.2.1] at hcap
        simp only [zeroOptions, lt_self_iff_false, if_false] at hcap
        exact_mod_cast hcap,
      hp.2.2.2.2.2.2.2.2.2.2.2.2.2.2⟩

/-! ## `flush` (C7, C8, C9) -/

theorem ackCalls_append (xs ys : List Effect) :
    ackCalls (xs ++ ys) = ackCalls xs ++ ackCalls ys := by
  induction xs with
  | nil => rfl
  | cons x xs ih => cases x <;> simp [ackCalls, ih]

theorem successCalls_append (xs ys : List Effect) :
    successCalls (xs ++ ys) = successCalls xs ++ successCalls ys := by
  induction xs with
  | nil => rfl
  | cons x xs ih => cases x <;> simp [successCalls, ih]

theorem errorCauses_append (xs ys : List Effect) :
    errorCauses (xs ++ ys) = errorCauses xs ++ errorCauses ys := by
  induction xs with
  | nil => rfl
  | cons x xs ih => cases x <;> simp [errorCauses, ih]

theorem spawned_append (xs ys : List Effect) :
    spawned (xs ++ ys) = spawned xs ++ spawned ys := by
  induction xs with
  | nil => rfl
  | cons x xs ih => cases x <;> simp [spawned, ih]

theorem batches_append (xs ys : List Effect) :
    batches (xs ++ ys) = batches xs ++ batches ys := by
  induction xs with
  | nil => rfl
  | cons x xs ih => cases x <;> simp [batches, ih]

/-- The effects of acknowledging a list of jobs, seen through each projection. -/
theorem marks_projections (B : List Job) :
    ackCalls (B.map fun job => Effect.MarkMessage job.Session job.Message)
        = B.map (fun job => (job.Session, job.Message))
      ∧ successCalls (B.map fun job => Effect.MarkMessage job.Session job.Message) = []
      ∧ errorCauses (B.map fun job => Effect.MarkMessage job.Session job.Message) = []
      ∧ spawned (B.map fun job => Effect.MarkMessage job.Session job.Message) = []
      ∧ batches (B.map fun job => Effect.MarkMessage job.Session job.Message) = [] := by
  induction B with
  | nil => simp [ackCalls, successCalls, errorCauses, spawned, batches]
  | cons j js ih =>
    obtain ⟨h1, h2, h3, h4, h5⟩ := ih
    simp [ackCalls, successCalls, errorCauses, spawned, batches, h1, h2, h3, h4, h5]

/-- The effects of `handleFailure` on every job of a list, seen through each projection. -/
theorem failures_projections {σ : Type} (p : Pool σ) (e : GoError) (B : List Job) :
    ackCalls (B.flatMap fun job => p.handleFailure job e) = []
      ∧ successCalls (B.flatMap fun job => p.handleFailure job e) = []
      ∧ errorCauses (B.flatMap fun job => p.handleFailure job e) = List.replicate B.length e
      ∧ batches (B.flatMap fun job => p.handleFailure job e) = [] := by
  induction B with
  | nil => simp [ackCalls, successCalls, errorCauses, batches]
  | cons j js ih =>
    obtain ⟨h1, h2, h3, h4⟩ := ih
    have hj : ackCalls (p.handleFailure j e) = [] ∧ successCalls (p.handleFailure j e) = []
        ∧ errorCauses (p.handleFailure j e) = [e] ∧ batches (p.handleFailure j e) = [] := by
      unfold Pool.handleFailure
      split_ifs <;> simp [ackCalls, successCalls, errorCauses, batches]
    obtain ⟨g1, g2, g3, g4⟩ := hj
    simp [List.flatMap_cons, ackCalls_append, successCalls_append, errorCauses_append,
      batches_append, h1, h2, h3, h4, g1, g2, g3, g4, List.replicate_succ]

/-- The records of a flush are the records of the buffered jobs, in buffer order. -/
theorem flush_records (B : List Job) :
    B.foldl (fun records job => records ++ [toRecord job]) [] = B.map toRecord := by
  simpa using foldl_snoc_eq_map toRecord B []

/-- What `flush` does with a non-empty buffer when the sink reports success. -/
theorem flush_success {σ : Type} (p : Pool σ) (force : Bool) (sink : σ) (B : List Job)
    (hB : B ≠ []) (hok : (p.processor.ProcessBatch sink (B.map toRecord)).2 = none) :
    p.flush force sink B =
      { effects := Effect.ProcessBatch (B.map toRecord) ::
          ((B.map fun job => Effect.MarkMessage job.Session job.Message)
            ++ [Effect.OnSuccess B.length])
        sink := (p.processor.ProcessBatch sink (B.map toRecord)).1
        buffer := [] } := by
  have hlen : ¬ B.length = 0 := by
    intro h
    exact hB (List.length_eq_zero.mp h)
  have hm := foldl_snoc_eq_map (fun job : Job => Effect.MarkMessage job.Session job.Message) B []
  simp only [List.nil_append] at hm
  unfold Pool.flush
  simp only [hlen, if_false, flush_records, hok, hm, List.take_zero]

/-- What `flush` does with a non-empty buffer when the sink reports error `e`. -/
theorem flush_failure {σ : Type} (p : Pool σ) (force : Bool) (sink : σ) (B : List Job)
    (e : GoError) (hB : B ≠ [])
    (herr : (p.processor.ProcessBatch sink (B.map toRecord)).2 = some e) :
    p.flush force sink B =
      { effects := Effect.ProcessBatch (B.map toRecord) ::
          (B.flatMap fun job => p.handleFailure job e)
        sink := (p.processor.ProcessBatch sink (B.map toRecord)).1
        buffer := [] } := by
  have hlen : ¬ B.length = 0 := by
    intro h
    exact hB (List.length_eq_zero.mp h)
  have hm := foldl_append_eq_flatMap (fun job : Job => p.handleFailure job e) B []
  simp only [List.nil_append] at hm
  unfold Pool.flush
  simp only [hlen, if_false, flush_records, herr, hm, List.take_zero]

/-- C7: when the sink accepts the batch of a non-empty buffer `B`, `flush` acknowledges
every job of `B` exactly once (one `MarkMessage` per job, on the session and with the
message of that job), calls `OnSuccess` once with `len(B)`, never calls `OnError`, starts
no retry, and leaves the buffer empty. -/
theorem C7_flush_success_acknowledges {σ : Type} (p : Pool σ) (force : Bool) (sink : σ)
    (B : List Job) (hB : B ≠ [])
    (hok : (p.processor.ProcessBatch sink (B.map toRecord)).2 = none) :
    ackCalls (p.flush force sink B).effects = B.map (fun job => (job.Session, job.Message))
      ∧ successCalls (p.flush force sink B).effects = [(B.length : Int)]
      ∧ errorCauses (p.flush force sink B).effects = []
      ∧ spawned (p.flush force sink B).effects = []
      ∧ (p.flush force sink B).buffer = [] := by
  obtain ⟨h1, h2, h3, h4, _⟩ := marks_projections B
  rw [flush_success p force sink B hB hok]
  refine ⟨?_, ?_, ?_, ?_, rfl⟩
  · simp [ackCalls, ackCalls_append, h1]
  · simp [successCalls, successCalls_append, h2]
  · simp [errorCauses, errorCauses_append, h3]
  · simp [spawned, spawned_append, h4]

/-- C7 on a buffer of two jobs and a sink that accepts. -/
theorem C7_flush_success_acknowledges_witness :
    ackCalls ((builtPool okSink zeroOptions).flush false () [exampleJob 4, exampleJob 5]).effects
        = [(1, exampleMessage 4 []), (1, exampleMessage 5 [])]
      ∧ successCalls
          ((builtPool okSink zeroOptions).flush false () [exampleJob 4, exampleJob 5]).effects = [2] :=
  have h := C7_flush_success_acknowledges (builtPool okSink zeroOptions) false ()
    [exampleJob 4, exampleJob 5] (by simp) rfl
  ⟨h.1, h.2.1⟩

/-- C8: when the sink answers the batch of a non-empty buffer `B` with error `e`, `flush`
runs `handleFailure` with cause `e` on every job of `B`, once each and in buffer order (so
`OnError` is called `len(B)` times, each time with `e`), acknowledges none, does not call
`OnSuccess`, and leaves the buffer empty; the sink was called once, with the whole batch. -/
theorem C8_flush_failure_routes_all {σ : Type} (p : Pool σ) (force : Bool) (sink : σ)
    (B : List Job) (e : GoError) (hB : B ≠ [])
    (herr : (p.processor.ProcessBatch sink (B.map toRecord)).2 = some e) :
    (p.flush force sink B).effects
        = Effect.ProcessBatch (B.map toRecord) :: B.flatMap (fun job => p.handleFailure job e)
      ∧ errorCauses (p.flush force sink B).effects = List.replicate B.length e
      ∧ ackCalls (p.flush force sink B).effects = []
      ∧ successCalls (p.flush force sink B).effects = []
      ∧ batches (p.flush force sink B).effects = [B.map toRecord]
      ∧ (p.flush force sink B).buffer = [] := by
  obtain ⟨h1, h2, h3, h4⟩ := failures_projections p e B
  rw [flush_failure p force sink B e hB herr]
  refine ⟨rfl, ?_, ?_, ?_, ?_, rfl⟩
  · simp [errorCauses, h3]
  · simp [ackCalls, h1]
  · simp [successCalls, h2]
  · simp [batches, h4]

/-- C8 on a buffer of two jobs and a sink that fails. -/
theorem C8_flush_failure_routes_all_witness :
    errorCauses
        ((builtPool failingSink zeroOptions).flush false () [exampleJob 4, exampleJob 5]).effects
        = [{ msg := "sink down" }, { msg := "sink down" }]
      ∧ ackCalls
        ((builtPool failingSink zeroOptions).flush false () [exampleJob 4, exampleJob 5]).effects
        = [] :=
  have h := C8_flush_failure_routes_all (builtPool failingSink zeroOptions) false ()
    [exampleJob 4, exampleJob 5] { msg := "sink down" } (by simp) rfl
  ⟨h.2.1, h.2.2.1⟩

/-- Whatever the sink answers, a flush of a non-empty buffer calls it exactly once, with
the records of the buffered jobs. -/
theorem flush_batches {σ : Type} (p : Pool σ) (force : Bool) (sink : σ) (B : List Job)
    (hB : B ≠ []) : batches (p.flush force sink B).effects = [B.map toRecord] := by
  cases herr : (p.processor.ProcessBatch sink (B.map toRecord)).2 with
  | none =>
    obtain ⟨_, _, _, _, h5⟩ := marks_projections B
    rw [flush_success p force sink B hB herr]
    simp [batches, batches_append, h5]
  | some e =>
    obtain ⟨_, _, _, h4⟩ := failures_projections p e B
    rw [flush_failure p force sink B e hB herr]
    simp [batches, h4]

/-- C9: a flush of an empty buffer does nothing at all (no sink call, no acknowledgment,
no callback; sink and buffer as before); a flush of a non-empty buffer `B` calls
`ProcessBatch` exactly once, with as many records as `B` has jobs, and record `i` copies
Topic, Partition, Offset, Key, Value and Timestamp from the message of job `i`. -/
theorem C9_flush_one_sink_call {σ : Type} (p : Pool σ) (force : Bool) (sink : σ)
    (B : List Job) :
    (p.flush force sink []).effects = []
      ∧ (p.flush force sink []).sink = sink
      ∧ (p.flush force sink []).buffer = []
      ∧ (B ≠ [] →
          ∃ records : List Record, batches (p.flush force sink B).effects = [records]
            ∧ records.length = B.length
            ∧ ∀ (i : Nat) (job : Job), B[i]? = some job →
                ∃ r : Record, records[i]? = some r
                  ∧ r.Topic = job.Message.Topic ∧ r.Partition = job.Message.Partition
                  ∧ r.Offset = job.Message.Offset ∧ r.Key = job.Message.Key
                  ∧ r.Value = job.Message.Value ∧ r.Timestamp = job.Message.Timestamp) := by
  refine ⟨rfl, rfl, rfl, ?_⟩
  intro hB
  refine ⟨B.map toRecord, flush_batches p force sink B hB, by simp, ?_⟩
  intro i job hi
  refine ⟨toRecord job, ?_, rfl, rfl, rfl, rfl, rfl, rfl⟩
  simp [List.getElem?_map, hi]

/-- C9 on a buffer of two jobs: one sink call, with the two records in order. -/
theorem C9_flush_one_sink_call_witness :
    ∃ records : List Record,
      batches ((builtPool okSink zeroOptions).flush true () [exampleJob 4, exampleJob 5]).effects
          = [records]
        ∧ records.length = [exampleJob 4, exampleJob 5].length
        ∧ ∀ (i : Nat) (job : Job), [exampleJob 4, exampleJob 5][i]? = some job →
            ∃ r : Record, records[i]? = some r
              ∧ r.Topic = job.Message.Topic ∧ r.Partition = job.Message.Partition
              ∧ r.Offset = job.Message.Offset ∧ r.Key = job.Message.Key
              ∧ r.Value = job.Message.Value ∧ r.Timestamp = job.Message.Timestamp :=
  (C9_flush_one_sink_call (builtPool okSink zeroOptions) true ()
    [exampleJob 4, exampleJob 5]).2.2.2 (by simp)

/-! ## Header flattening (C10) -/

theorem mapLoad_mapStore (m : GoMap) (k : GoString) (v : Bytes) (k2 : GoString) :
    mapLoad (mapStore m k v) k2 = if k = k2 then some v else mapLoad m k2 := by
  induction m with
  | nil => simp [mapStore, mapLoad]
  | cons kv rest ih =>
    obtain ⟨k0, v0⟩ := kv
    by_cases h0 : k0 = k
    · subst h0
      by_cases h2 : k0 = k2 <;> simp [mapStore, mapLoad, h2]
    · by_cases h2 : k0 = k2
      · subst h2
        have hne : ¬ k = k0 := fun h => h0 h.symm
        simp [mapStore, mapLoad, h0, hne]
      · simp [mapStore, mapLoad, h0, h2, ih]

/-- Storing a list of headers one after the other: a key is bound to the value of its
last header, or keeps its earlier binding when no header has it. -/
theorem mapLoad_foldl_store (hs : List RecordHeader) (init : GoMap) (k : GoString) :
    mapLoad (hs.foldl (fun headers h => mapStore headers (stringOfBytes h.Key) h.Value) init) k
      = match hs.reverse.find? (fun h => decide (stringOfBytes h.Key = k)) with
        | some h => some h.Value
        | none => mapLoad init k := by
  induction hs generalizing init with
  | nil => simp
  | cons h t ih =>
    rw [List.foldl_cons, ih, List.reverse_cons, List.find?_append]
    cases hf : t.reverse.find? (fun h => decide (stringOfBytes h.Key = k)) with
    | some h2 => simp
    | none =>
      by_cases hk : stringOfBytes h.Key = k
      · simp [List.find?, hk, mapLoad_mapStore]
      · simp [List.find?, hk, mapLoad_mapStore]

/-- C10: in the record built by `flush`, the Headers map binds key `k` exactly when some
header of the message has key `k`, and then to the value of the last such header; a
message without headers gives the empty map. -/
theorem C10_headers_last_write_wins (job : Job) (k : GoString) :
    mapLoad (toRecord job).Headers k
        = (job.Message.Headers.reverse.find? (fun h => decide (stringOfBytes h.Key = k))).map
            (fun h => h.Value)
      ∧ ((mapLoad (toRecord job).Headers k).isSome
          ↔ ∃ h ∈ job.Message.Headers, stringOfBytes h.Key = k)
      ∧ (toRecord { job with Message := { job.Message with Headers := [] } }).Headers = [] := by
  have hload : mapLoad (toRecord job).Headers k
      = (job.Message.Headers.reverse.find? (fun h => decide (stringOfBytes h.Key = k))).map
          (fun h => h.Value) := by
    show mapLoad (flattenHeaders job.Message.Headers) k = _
    unfold flattenHeaders makeMap
    rw [mapLoad_foldl_store]
    cases job.Message.Headers.reverse.find? (fun h => decide (stringOfBytes h.Key = k)) <;>
      simp [mapLoad]
  refine ⟨hload, ?_, rfl⟩
  rw [hload]
  cases hf : job.Message.Headers.reverse.find? (fun h => decide (stringOfBytes h.Key = k)) with
  | some h =>
    have hmem := List.mem_of_find?_eq_some hf
    have hkey := List.find?_some hf
    simp only [Option.map_some', Option.isSome_some, true_iff]
    exact ⟨h, by simpa using hmem, by simpa using hkey⟩
  | none =>
    simp only [Option.map_none', Option.isSome_none, Bool.false_eq_true, false_iff]
    rintro ⟨h, hmem, hkey⟩
    have hall := List.find?_eq_none.mp hf h (by simpa using hmem)
    simp [hkey] at hall

/-! ## `Submit` and `Stop` on a stopped pool (C4) -/

/-- What a call on a stopped pool returns: `Submit` false, `Stop` nothing. -/
theorem call_of_closed {σ : Type} (q : Pool σ) (hq : q.closed = true) (c : Call) :
    q.call c = .ret ((match c with | .Submit _ => some false | .Stop => none), q) := by
  cases c with
  | Submit job => simp [Pool.call, Pool.Submit, hq]
  | Stop => simp [Pool.call, Pool.Stop, hq]

theorem calls_of_closed {σ : Type} (q : Pool σ) (hq : q.closed = true) (cs : List Call) :
    q.calls cs
      = .ret (cs.map (fun c => match c with | .Submit _ => some false | .Stop => none), q) := by
  induction cs with
  | nil => rfl
  | cons c cs ih => simp [Pool.calls, call_of_closed q hq c, ih]

theorem closed_of_Stop {σ : Type} (p q : Pool σ) (hstop : p.Stop = .ret q) :
    q.closed = true ∧ q.jobs.closed = true ∨ (p.closed = true ∧ q = p) := by
  unfold Pool.Stop at hstop
  by_cases hc : p.closed = true
  · right
    simp only [hc, if_true, Outcome.ret.injEq] at hstop
    exact ⟨hc, hstop.symm⟩
  · left
    simp only [hc, Bool.false_eq_true, if_false, Chan.close] at hstop
    by_cases hj : p.jobs.closed = true
    · simp [hj] at hstop
    · simp only [hj, Bool.false_eq_true, if_false, Outcome.ret.injEq] at hstop
      subst hstop
      exact ⟨rfl, rfl⟩

/-- C4: after `Stop` has returned (pool `q`), every later sequence of `Submit` and `Stop`
calls runs to the end without blocking or panicking, each `Submit` in it returns false,
and the pool at the end is `q` itself: nothing was enqueued, the closed flag is still
true, and no `Stop` closed the queue again (that would have panicked). -/
theorem C4_stopped_pool_rejects {σ : Type} (p q : Pool σ) (hstop : p.Stop = .ret q)
    (cs : List Call) :
    q.closed = true
      ∧ q.calls cs
          = .ret (cs.map (fun c => match c with | .Submit _ => some false | .Stop => none), q)
      ∧ q.Stop = .ret q
      ∧ ∀ job, q.Submit job = .ret (false, q) := by
  have hq : q.closed = true := by
    rcases closed_of_Stop p q hstop with h | ⟨h, rfl⟩
    · exact h.1
    · exact h
  refine ⟨hq, calls_of_closed q hq cs, ?_, ?_⟩
  · simp [Pool.Stop, hq]
  · intro job
    simp [Pool.Submit, hq]

/-- C4 on a fresh pool holding one job: `Stop`, then `Submit`, `Stop`, `Submit`. -/
theorem C4_stopped_pool_rejects_witness :
    ∃ q : Pool Unit,
      ({ builtPool okSink zeroOptions with
          jobs := { buf := [exampleJob 1], cap := 4096, closed := false } } : Pool Unit).Stop
          = .ret q
      ∧ q.jobs.buf = [exampleJob 1]
      ∧ q.calls [.Submit (exampleJob 2), .Stop, .Submit (exampleJob 3)]
          = .ret ([some false, none, some false], q) :=
  ⟨{ builtPool okSink zeroOptions with
      jobs := { buf := [exampleJob 1], cap := 4096, closed := true }, closed := true },
    rfl, rfl,
    (C4_stopped_pool_rejects
      ({ builtPool okSink zeroOptions with
          jobs := { buf := [exampleJob 1], cap := 4096, closed := false } } : Pool Unit)
      _ rfl [.Submit (exampleJob 2), .Stop, .Submit (exampleJob 3)]).2.1⟩

/-! ## `Submit` racing `Stop` (C5) -/

/-- C5 (fails on the code): `Submit` gives the lock back (line 114) before it sends (line
117).  On every pool `NewPool` returns, in the schedule where `Submit` checks the flag and
unlocks, then `Stop` runs from start to end, the send of `Submit` comes after
`close(p.jobs)` and panics, although the pool was open when `Submit` looked.  With `Stop`
scheduled first the same `Submit` returns false. -/
theorem C5_send_after_close_panics {σ : Type} (limit : Nat) (processor : Processor σ)
    (o : Options) (job : Job) (p : Pool σ) (hp : NewPool limit processor o = .ret p) :
    ((Race.start p job).run
        [.submit, .submit, .submit, .stop, .stop, .stop, .stop, .stop, .stop]).submit
        = SubmitPC.atSelect
      ∧ ((Race.start p job).run
        [.submit, .submit, .submit, .stop, .stop, .stop, .stop, .stop, .stop]).stop
        = StopPC.returned
      ∧ ((Race.start p job).run
        [.submit, .submit, .submit, .stop, .stop, .stop, .stop, .stop, .stop]).pool.jobs.closed
        = true
      ∧ ((Race.start p job).run
        [.submit, .submit, .submit, .stop, .stop, .stop, .stop, .stop, .stop, .submit]).submit
        = SubmitPC.panicked
      ∧ ((Race.start p job).run
        [.stop, .stop, .stop, .stop, .stop, .stop, .submit, .submit, .submit]).submit
        = SubmitPC.returned false := by
  obtain ⟨_, rfl⟩ := (NewPool_ret_iff limit processor o p).mp hp
  refine ⟨?_, ?_, ?_, ?_, ?_⟩ <;>
    simp [Race.run, Race.step, Race.start, Race.stepSubmit, Race.stepStop, builtPool,
      Chan.close]

/-- C5 on the pool built from unset options: the send after the close panics. -/
theorem C5_send_after_close_panics_witness :
    NewPool chanLimit64 okSink zeroOptions = .ret (builtPool okSink zeroOptions)
      ∧ ((Race.start (builtPool okSink zeroOptions) (exampleJob 1)).run
        [.submit, .submit, .submit, .stop, .stop, .stop, .stop, .stop, .stop, .submit]).submit
        = SubmitPC.panicked :=
  ⟨rfl, (C5_send_after_close_panics chanLimit64 okSink zeroOptions (exampleJob 1) _
    rfl).2.2.2.1⟩

/-! ## The event loop of one worker (C11, C12) -/

theorem flush_buffer {σ : Type} (p : Pool σ) (force : Bool) (sink : σ) (B : List Job) :
    (p.flush force sink B).buffer = [] := by
  cases B with
  | nil => rfl
  | cons j js =>
    cases herr : (p.processor.ProcessBatch sink ((j :: js).map toRecord)).2 with
    | none => rw [flush_success p force sink (j :: js) (by simp) herr]
    | some e => rw [flush_failure p force sink (j :: js) e (by simp) herr]

theorem flush_batches_all {σ : Type} (p : Pool σ) (force : Bool) (sink : σ) (B : List Job) :
    batches (p.flush force sink B).effects = if B = [] then [] else [B.map toRecord] := by
  cases B with
  | nil => rfl
  | cons j js =>
    rw [flush_batches p force sink (j :: js) (by simp)]
    simp

theorem step_of_returned {σ : Type} (p : Pool σ) (w : WorkerState σ) (hw : w.returned = true)
    (ev : WorkerEvent) : p.runWorkerStep w ev = w := by
  simp [Pool.runWorkerStep, hw]

theorem run_of_returned {σ : Type} (p : Pool σ) (w : WorkerState σ) (hw : w.returned = true)
    (evs : List WorkerEvent) : evs.foldl p.runWorkerStep w = w := by
  induction evs with
  | nil => rfl
  | cons ev evs ih => rw [List.foldl_cons, step_of_returned p w hw, ih]

/-- A flushing event (tick, cancellation, closed queue) on a running worker. -/
theorem step_flush {σ : Type} (p : Pool σ) (w : WorkerState σ) (hw : w.returned = false)
    (ev : WorkerEvent) (hev : ev = .tick ∨ ev = .ctxDone ∨ ev = .recvClosed) :
    (p.runWorkerStep w ev).buffer = []
      ∧ batches (p.runWorkerStep w ev).trace
          = batches w.trace ++ (if w.buffer = [] then [] else [w.buffer.map toRecord])
      ∧ (p.runWorkerStep w ev).returned = (if ev = .tick then false else true) := by
  rcases hev with h | h | h <;> subst h <;>
    simp [Pool.runWorkerStep, hw, Pool.handleEvent, flush_buffer, batches_append,
      flush_batches_all]

/-- A receive event on a running worker: the job is appended, and the buffer is flushed
at once when that makes it reach the batch size. -/
theorem step_recv {σ : Type} (p : Pool σ) (w : WorkerState σ) (hw : w.returned = false)
    (job : Job) :
    (p.runWorkerStep w (.recv job)).returned = false
      ∧ (((w.buffer.length + 1 : Nat) : Int) ≥ p.opts.BatchSize →
          (p.runWorkerStep w (.recv job)).buffer = []
            ∧ batches (p.runWorkerStep w (.recv job)).trace
                = batches w.trace ++ [(w.buffer ++ [job]).map toRecord])
      ∧ (¬ ((w.buffer.length + 1 : Nat) : Int) ≥ p.opts.BatchSize →
          (p.runWorkerStep w (.recv job)).buffer = w.buffer ++ [job]
            ∧ batches (p.runWorkerStep w (.recv job)).trace = batches w.trace) := by
  have hlen : ((w.buffer ++ [job]).length : Int) = ((w.buffer.length + 1 : Nat) : Int) := by
    simp
  refine ⟨?_, ?_, ?_⟩
  · by_cases hge : ((w.buffer ++ [job]).length : Int) ≥ p.opts.BatchSize
    · simp only [Pool.runWorkerStep, hw, Pool.handleEvent, hge, if_true, Bool.false_eq_true,
        if_false]
    · simp only [Pool.runWorkerStep, hw, Pool.handleEvent, hge, if_false, Bool.false_eq_true]
  · intro hge
    have hge2 : ((w.buffer ++ [job]).length : Int) ≥ p.opts.BatchSize := by
      rw [hlen]
      exact hge
    simp only [Pool.runWorkerStep, hw, Pool.handleEvent, hge2, if_true, Bool.false_eq_true,
      if_false]
    refine ⟨flush_buffer _ _ _ _, ?_⟩
    rw [batches_append, flush_batches_all]
    simp
  · intro hlt
    have hlt2 : ¬ ((w.buffer ++ [job]).length : Int) ≥ p.opts.BatchSize := by
      rw [hlen]
      exact hlt
    simp only [Pool.runWorkerStep, hw, Pool.handleEvent, hlt2, if_false, Bool.false_eq_true]
    simp [batches_append, batches]

theorem flatten_flushed (bs : List (List Record)) (B : List Job) :
    (bs ++ (if B = [] then [] else [B.map toRecord])).flatten = bs.flatten ++ B.map toRecord := by
  cases B with
  | nil => simp
  | cons j js => simp

/-- The size invariant of one worker is kept by every event. -/
theorem size_step {σ : Type} (p : Pool σ) (n : Nat) (hn : 1 ≤ n)
    (hb : p.opts.BatchSize = (n : Int)) (w : WorkerState σ) (hlen : w.buffer.length < n)
    (hbat : ∀ b ∈ batches w.trace, 1 ≤ b.length ∧ b.length ≤ n) (ev : WorkerEvent) :
    (p.runWorkerStep w ev).buffer.length < n
      ∧ ∀ b ∈ batches (p.runWorkerStep w ev).trace, 1 ≤ b.length ∧ b.length ≤ n := by
  by_cases hw : w.returned = true
  · rw [step_of_returned p w hw]
    exact ⟨hlen, hbat⟩
  · have hw2 : w.returned = false := by simpa using hw
    have hflush : ∀ ev : WorkerEvent, (ev = .tick ∨ ev = .ctxDone ∨ ev = .recvClosed) →
        (p.runWorkerStep w ev).buffer.length < n
          ∧ ∀ b ∈ batches (p.runWorkerStep w ev).trace, 1 ≤ b.length ∧ b.length ≤ n := by
      intro ev hev
      obtain ⟨h1, h2, _⟩ := step_flush p w hw2 ev hev
      refine ⟨by rw [h1]; simpa using hn, ?_⟩
      intro b hbmem
      rw [h2, List.mem_append] at hbmem
      rcases hbmem with hold | hnew
      · exact hbat b hold
      · by_cases hnil : w.buffer = []
        · simp [hnil] at hnew
        · simp only [hnil, if_false, List.mem_singleton] at hnew
          subst hnew
          have hpos : 0 < w.buffer.length := List.length_pos.mpr hnil
          simp only [List.length_map]
          omega
    cases ev with
    | tick => exact hflush _ (Or.inl rfl)
    | ctxDone => exact hflush _ (Or.inr (Or.inl rfl))
    | recvClosed => exact hflush _ (Or.inr (Or.inr rfl))
    | recv job =>
      obtain ⟨_, hfull, hroom⟩ := step_recv p w hw2 job
      by_cases hge : ((w.buffer.length + 1 : Nat) : Int) ≥ p.opts.BatchSize
      · obtain ⟨h1, h2⟩ := hfull hge
        refine ⟨by rw [h1]; simpa using hn, ?_⟩
        intro b hbmem
        rw [h2, List.mem_append] at hbmem
        rcases hbmem with hold | hnew
        · exact hbat b hold
        · simp only [List.mem_singleton] at hnew
          subst hnew
          simp only [List.length_map, List.length_append, List.length_singleton]
          omega
      · obtain ⟨h1, h2⟩ := hroom hge
        refine ⟨?_, by rw [h2]; exact hbat⟩
        rw [h1, hb] at *
        simp only [List.length_append, List.length_singleton]
        omega

theorem size_run {σ : Type} (p : Pool σ) (n : Nat) (hn : 1 ≤ n)
    (hb : p.opts.BatchSize = (n : Int)) (evs : List WorkerEvent) (w : WorkerState σ)
    (hlen : w.buffer.length < n)
    (hbat : ∀ b ∈ batches w.trace, 1 ≤ b.length ∧ b.length ≤ n) :
    (evs.foldl p.runWorkerStep w).buffer.length < n
      ∧ ∀ b ∈ batches (evs.foldl p.runWorkerStep w).trace, 1 ≤ b.length ∧ b.length ≤ n := by
  induction evs generalizing w with
  | nil => exact ⟨hlen, hbat⟩
  | cons ev evs ih =>
    obtain ⟨h1, h2⟩ := size_step p n hn hb w hlen hbat ev
    exact ih (p.runWorkerStep w ev) h1 h2

/-- Receives that do not fill the buffer only append to it. -/
theorem run_recv_below {σ : Type} (p : Pool σ) (n : Nat) (hb : p.opts.BatchSize = (n : Int))
    (js : List Job) (w : WorkerState σ) (hw : w.returned = false)
    (hroom : w.buffer.length + js.length < n) :
    ((js.map WorkerEvent.recv).foldl p.runWorkerStep w).buffer = w.buffer ++ js
      ∧ batches ((js.map WorkerEvent.recv).foldl p.runWorkerStep w).trace = batches w.trace
      ∧ ((js.map WorkerEvent.recv).foldl p.runWorkerStep w).returned = false := by
  induction js generalizing w with
  | nil => simp [hw]
  | cons j js ih =>
    simp only [List.length_cons] at hroom
    obtain ⟨hret, _, hbelow⟩ := step_recv p w hw j
    have hlt : ¬ ((w.buffer.length + 1 : Nat) : Int) ≥ p.opts.BatchSize := by
      rw [hb]
      omega
    obtain ⟨h1, h2⟩ := hbelow hlt
    have hroom2 : (p.runWorkerStep w (.recv j)).buffer.length + js.length < n := by
      rw [h1]
      simp only [List.length_append, List.length_singleton]
      omega
    obtain ⟨g1, g2, g3⟩ := ih (p.runWorkerStep w (.recv j)) hret hroom2
    simp only [List.map_cons, List.foldl_cons]
    refine ⟨?_, ?_, g3⟩
    · rw [g1, h1]
      simp
    · rw [g2, h2]

/-- Where the trace and the buffer of a running worker stand after more events: every
record handed to the sink or still buffered, in order, is what was there before followed
by the records of the jobs received since. -/
theorem conserve_run {σ : Type} (p : Pool σ) (evs : List WorkerEvent) (w : WorkerState σ)
    (hw : w.returned = false) :
    (batches (evs.foldl p.runWorkerStep w).trace).flatten
          ++ (evs.foldl p.runWorkerStep w).buffer.map toRecord
        = (batches w.trace).flatten ++ w.buffer.map toRecord ++ (received evs).map toRecord
      ∧ ((evs.foldl p.runWorkerStep w).returned = true →
          (evs.foldl p.runWorkerStep w).buffer = []) := by
  induction evs generalizing w with
  | nil => simp [received, hw]
  | cons ev evs ih =>
    rw [List.foldl_cons]
    have hstop : ∀ ev : WorkerEvent, (ev = .ctxDone ∨ ev = .recvClosed) → received (ev :: evs) = [] →
        (batches (evs.foldl p.runWorkerStep (p.runWorkerStep w ev)).trace).flatten
              ++ (evs.foldl p.runWorkerStep (p.runWorkerStep w ev)).buffer.map toRecord
            = (batches w.trace).flatten ++ w.buffer.map toRecord
                ++ (received (ev :: evs)).map toRecord
          ∧ ((evs.foldl p.runWorkerStep (p.runWorkerStep w ev)).returned = true →
              (evs.foldl p.runWorkerStep (p.runWorkerStep w ev)).buffer = []) := by
      intro ev hev hrec
      obtain ⟨h1, h2, h3⟩ := step_flush p w hw ev (Or.inr hev)
      have hret : (p.runWorkerStep w ev).returned = true := by
        rw [h3]
        rcases hev with h | h <;> subst h <;> rfl
      rw [run_of_returned p _ hret evs, h1, h2, hrec, flatten_flushed]
      simp
    cases ev with
    | ctxDone => exact hstop _ (Or.inl rfl) rfl
    | recvClosed => exact hstop _ (Or.inr rfl) rfl
    | tick =>
      obtain ⟨h1, h2, h3⟩ := step_flush p w hw .tick (Or.inl rfl)
      obtain ⟨g1, g2⟩ := ih (p.runWorkerStep w .tick) (by rw [h3]; rfl)
      refine ⟨?_, g2⟩
      rw [g1, h1, h2, flatten_flushed]
      simp [received]
    | recv job =>
      obtain ⟨hret, hfull, hroom⟩ := step_recv p w hw job
      obtain ⟨g1, g2⟩ := ih (p.runWorkerStep w (.recv job)) hret
      refine ⟨?_, g2⟩
      rw [g1]
      by_cases hge : ((w.buffer.length + 1 : Nat) : Int) ≥ p.opts.BatchSize
      · obtain ⟨h1, h2⟩ := hfull hge
        rw [h1, h2]
        simp [received]
      · obtain ⟨h1, h2⟩ := hroom hge
        rw [h1, h2]
        simp [received]

theorem runWorker_snoc {σ : Type} (p : Pool σ) (sink : σ) (evs : List WorkerEvent)
    (ev : WorkerEvent) :
    p.runWorker sink (evs ++ [ev]) = p.runWorkerStep (p.runWorker sink evs) ev := by
  simp [Pool.runWorker, List.foldl_append]

/-- C11: a worker with batch size `n >= 1` that starts with an empty buffer, after any
finite sequence of events: its buffer holds fewer than `n` jobs, and every batch it handed
to `ProcessBatch` has between 1 and `n` records.  While it runs, the receive that makes
the buffer reach `n` jobs flushes all `n` at once (one more sink call, with the buffered
jobs and the new one in order, and an empty buffer afterwards, before any further event),
and a receive that leaves it below `n` only appends.  In particular `n` receives in a row
make exactly one sink call, with the `n` records in order. -/
theorem C11_flush_at_batch_size {σ : Type} (p : Pool σ) (n : Nat) (hn : 1 ≤ n)
    (hb : p.opts.BatchSize = (n : Int)) (sink : σ) (evs : List WorkerEvent) :
    (p.runWorker sink evs).buffer.length < n
      ∧ (∀ b ∈ batches (p.runWorker sink evs).trace, 1 ≤ b.length ∧ b.length ≤ n)
      ∧ (∀ job : Job, (p.runWorker sink evs).returned = false →
          ((p.runWorker sink evs).buffer.length + 1 = n →
            (p.runWorker sink (evs ++ [.recv job])).buffer = []
              ∧ batches (p.runWorker sink (evs ++ [.recv job])).trace
                  = batches (p.runWorker sink evs).trace
                    ++ [((p.runWorker sink evs).buffer ++ [job]).map toRecord])
          ∧ ((p.runWorker sink evs).buffer.length + 1 < n →
            (p.runWorker sink (evs ++ [.recv job])).buffer
                = (p.runWorker sink evs).buffer ++ [job]
              ∧ batches (p.runWorker sink (evs ++ [.recv job])).trace
                  = batches (p.runWorker sink evs).trace))
      ∧ (∀ js : List Job, js.length = n →
          batches (p.runWorker sink (js.map WorkerEvent.recv)).trace = [js.map toRecord]
            ∧ (p.runWorker sink (js.map WorkerEvent.recv)).buffer = []) := by
  obtain ⟨hsize, hbat⟩ := size_run p n hn hb evs
    { buffer := [], sink := sink, trace := [], returned := false }
    (by simpa using hn) (by simp [batches])
  refine ⟨hsize, hbat, ?_, ?_⟩
  · intro job hrun
    obtain ⟨_, hfull, hroom⟩ := step_recv p (p.runWorker sink evs) hrun job
    rw [runWorker_snoc]
    refine ⟨?_, ?_⟩
    · intro hlen
      exact hfull (by rw [hb, hlen])
    · intro hlen
      exact hroom (by rw [hb]; omega)
  · intro js hjs
    rcases List.eq_nil_or_concat js with hnil | ⟨front, last, hcat⟩
    · subst hnil
      simp at hjs
      omega
    · rw [List.concat_eq_append] at hcat
      subst hcat
      simp only [List.length_append, List.length_singleton] at hjs
      have hinit : ({ buffer := [], sink := sink, trace := [], returned := false } :
          WorkerState σ).buffer.length + front.length < n := by
        simp only [List.length_nil]
        omega
      obtain ⟨g1, g2, g3⟩ := run_recv_below p n hb front
        { buffer := [], sink := sink, trace := [], returned := false } rfl hinit
      obtain ⟨_, hfull, _⟩ := step_recv p
        ((front.map WorkerEvent.recv).foldl p.runWorkerStep
          { buffer := [], sink := sink, trace := [], returned := false }) g3 last
      have hge : ((((front.map WorkerEvent.recv).foldl p.runWorkerStep
          { buffer := [], sink := sink, trace := [], returned := false }).buffer.length + 1 :
            Nat) : Int) ≥ p.opts.BatchSize := by
        rw [g1, hb]
        simp only [List.nil_append]
        omega
      obtain ⟨h1, h2⟩ := hfull hge
      have hrun : p.runWorker sink ((front ++ [last]).map WorkerEvent.recv)
          = p.runWorkerStep ((front.map WorkerEvent.recv).foldl p.runWorkerStep
              { buffer := [], sink := sink, trace := [], returned := false })
              (.recv last) := by
        simp [Pool.runWorker, List.foldl_append]
      rw [hrun, h1, h2, g1, g2]
      simp [batches]

/-- C11 with batch size 3: three receives in a row make one sink call, with the three
records in order, and leave the buffer empty. -/
theorem C11_flush_at_batch_size_witness :
    batches ((builtPool okSink { zeroOptions with BatchSize := 3 }).runWorker ()
        ([exampleJob 1, exampleJob 2, exampleJob 3].map WorkerEvent.recv)).trace
        = [[exampleJob 1, exampleJob 2, exampleJob 3].map toRecord]
      ∧ ((builtPool okSink { zeroOptions with BatchSize := 3 }).runWorker ()
        ([exampleJob 1, exampleJob 2, exampleJob 3].map WorkerEvent.recv)).buffer = [] :=
  (C11_flush_at_batch_size (builtPool okSink { zeroOptions with BatchSize := 3 }) 3 (by decide)
    rfl () []).2.2.2 [exampleJob 1, exampleJob 2, exampleJob 3] rfl

/-- C12: one worker, any finite sequence of events.  At every point the batches already
handed to `ProcessBatch`, one after the other, followed by the records of the jobs still
buffered, are exactly the records of the jobs dequeued so far, in arrival order: nothing
is lost, duplicated or reordered between the buffer and the sink.  A worker that has
returned has an empty buffer and reacts to no further event.  On cancellation or on the
closed queue a running worker makes one final flush (one sink call with everything
buffered, none when the buffer is empty) and returns with an empty buffer, so that every
job it ever dequeued has been handed to the sink exactly once. -/
theorem C12_no_job_lost {σ : Type} (p : Pool σ) (sink : σ) (evs : List WorkerEvent) :
    (batches (p.runWorker sink evs).trace).flatten
          ++ (p.runWorker sink evs).buffer.map toRecord
        = (received evs).map toRecord
      ∧ ((p.runWorker sink evs).returned = true →
          (p.runWorker sink evs).buffer = []
            ∧ ∀ more : List WorkerEvent,
                p.runWorker sink (evs ++ more) = p.runWorker sink evs)
      ∧ (∀ ev : WorkerEvent, ev = .ctxDone ∨ ev = .recvClosed →
          (p.runWorker sink evs).returned = false →
            (p.runWorker sink (evs ++ [ev])).returned = true
              ∧ (p.runWorker sink (evs ++ [ev])).buffer = []
              ∧ batches (p.runWorker sink (evs ++ [ev])).trace
                  = batches (p.runWorker sink evs).trace
                    ++ (if (p.runWorker sink evs).buffer = [] then []
                        else [(p.runWorker sink evs).buffer.map toRecord])
              ∧ (batches (p.runWorker sink (evs ++ [ev])).trace).flatten
                  = (received evs).map toRecord) := by
  obtain ⟨hcons, hret⟩ := conserve_run p evs
    { buffer := [], sink := sink, trace := [], returned := false } rfl
  have hcons2 : (batches (p.runWorker sink evs).trace).flatten
      ++ (p.runWorker sink evs).buffer.map toRecord = (received evs).map toRecord := by
    have h := hcons
    simp only [batches, List.flatten_nil, List.map_nil, List.append_nil, List.nil_append] at h
    exact h
  refine ⟨hcons2, ?_, ?_⟩
  · intro hdone
    refine ⟨hret hdone, ?_⟩
    intro more
    have h := run_of_returned p (p.runWorker sink evs) hdone more
    simpa [Pool.runWorker, List.foldl_append] using h
  · intro ev hev hrun
    obtain ⟨h1, h2, h3⟩ := step_flush p (p.runWorker sink evs) hrun ev (Or.inr hev)
    rw [runWorker_snoc]
    refine ⟨?_, h1, h2, ?_⟩
    · rw [h3]
      rcases hev with h | h <;> subst h <;> rfl
    · rw [h2, flatten_flushed, hcons2]

/-- C12 on a run with batch size 100: two receives, a tick, a third receive, then the
closed queue.  The tick hands over the first two records, the final flush the third. -/
theorem C12_no_job_lost_witness :
    batches ((builtPool okSink zeroOptions).runWorker ()
        [.recv (exampleJob 1), .recv (exampleJob 2), .tick, .recv (exampleJob 3),
          .recvClosed]).trace
        = [[toRecord (exampleJob 1), toRecord (exampleJob 2)], [toRecord (exampleJob 3)]]
      ∧ ((builtPool okSink zeroOptions).runWorker ()
        [.recv (exampleJob 1), .recv (exampleJob 2), .tick, .recv (exampleJob 3),
          .recvClosed]).buffer = [] :=
  have h := (C12_no_job_lost (builtPool okSink zeroOptions) ()
    [.recv (exampleJob 1), .recv (exampleJob 2), .tick, .recv (exampleJob 3)]).2.2
      .recvClosed (Or.inr rfl) rfl
  ⟨h.2.2.1.trans (by decide), h.2.1⟩

/-! ## The retry cap (C2) -/

theorem weight_append (m : Int) (P : Record → Bool) (xs ys : List Job) :
    weight m P (xs ++ ys) = weight m P xs + weight m P ys := by
  induction xs with
  | nil => simp [weight]
  | cons x xs ih => simp [weight, ih, Nat.add_assoc]

theorem failuresLeft_pos (m : Int) (job : Job) : 0 < failuresLeft m job := by
  unfold failuresLeft
  split_ifs <;> omega

theorem weight_eq_zero_iff (m : Int) (P : Record → Bool) (js : List Job) :
    weight m P js = 0 ↔ ∀ j ∈ js, P (toRecord j) = false := by
  induction js with
  | nil => simp [weight]
  | cons x xs ih =>
    have hpos := failuresLeft_pos m x
    by_cases hx : P (toRecord x) = true
    · simp [weight, hx]
      omega
    · simp only [Bool.not_eq_true] at hx
      simp [weight, hx, ih]

/-- The weight of all buffers changes by the weight of the buffer that is replaced. -/
theorem weight_set_buffer (m : Int) (P : Record → Bool) (ws : List Slot) (i : Nat) (w w2 : Slot)
    (hw : ws[i]? = some w) :
    weight m P ((ws.set i w2).map Slot.buffer).flatten + weight m P w.buffer
      = weight m P (ws.map Slot.buffer).flatten + weight m P w2.buffer := by
  induction ws generalizing i with
  | nil => simp at hw
  | cons x xs ih =>
    cases i with
    | zero =>
      simp only [List.getElem?_cons_zero, Option.some.injEq] at hw
      subst hw
      simp only [List.set_cons_zero, List.map_cons, List.flatten_cons, weight_append]
      omega
    | succ i =>
      simp only [List.getElem?_cons_succ] at hw
      have h := ih i hw
      simp only [List.set_cons_succ, List.map_cons, List.flatten_cons, weight_append]
      omega

/-- The weight of the waiting goroutines without the one that ends. -/
theorem weight_eraseIdx (m : Int) (P : Record → Bool) (ts : List (Job × Int)) (k : Nat)
    (job : Job) (d : Int) (hk : ts[k]? = some (job, d)) :
    weight m P ((ts.eraseIdx k).map Prod.fst) + weight m P [job]
      = weight m P (ts.map Prod.fst) := by
  induction ts generalizing k with
  | nil => simp at hk
  | cons x xs ih =>
    cases k with
    | zero =>
      simp only [List.getElem?_cons_zero, Option.some.injEq] at hk
      subst hk
      simp [weight]
      omega
    | succ k =>
      simp only [List.getElem?_cons_succ] at hk
      have h := ih k hk
      simp only [List.eraseIdx_cons_succ, List.map_cons, weight] at h ⊢
      omega

theorem handed_append (P : Record → Bool) (xs ys : List Effect) :
    handed P (xs ++ ys) = handed P xs + handed P ys := by
  simp [handed, batches_append, List.countP_append]

theorem spawned_handleFailure {σ : Type} (p : Pool σ) (m : Nat) (hp : Failing p m) (job : Job)
    (e : GoError) (hjob : -(2 : Int) ^ 63 ≤ job.Attempts) :
    spawned (p.handleFailure job e)
      = if job.Attempts < (m : Int) then
          [({ job with Attempts := job.Attempts + 1 }, backoff (job.Attempts + 1))]
        else [] := by
  have hr := hp.inRange
  by_cases hlt : job.Attempts < (m : Int)
  · have hge : ¬ job.Attempts ≥ (m : Int) := by omega
    have hw : wrapInt64 (job.Attempts + 1) = job.Attempts + 1 :=
      wrapInt64_of_range _ (by omega) (by omega)
    simp [Pool.handleFailure, hp.retries, hge, hlt, hw, spawned]
  · have hge : job.Attempts ≥ (m : Int) := by omega
    simp [Pool.handleFailure, hp.retries, hge, hlt, spawned]

/-- One failure of one job: it is handed to the sink once, and what is left to it
afterwards is one failure less. -/
theorem weight_handleFailure {σ : Type} (p : Pool σ) (m : Nat) (hp : Failing p m)
    (P : Record → Bool) (job : Job) (e : GoError) (hjob : -(2 : Int) ^ 63 ≤ job.Attempts) :
    (if P (toRecord job) then 1 else 0)
        + weight (m : Int) P ((spawned (p.handleFailure job e)).map Prod.fst)
      = weight (m : Int) P [job] := by
  rw [spawned_handleFailure p m hp job e hjob]
  have hrec : toRecord { job with Attempts := job.Attempts + 1 } = toRecord job := rfl
  by_cases hlt : job.Attempts < (m : Int)
  · simp only [hlt, if_true, List.map_cons, List.map_nil, weight, hrec, Nat.add_zero]
    by_cases hP : P (toRecord job) = true
    · simp only [hP, if_true, failuresLeft]
      split_ifs <;> omega
    · simp [hP]
  · simp only [hlt, if_false, List.map_nil, weight, Nat.add_zero]
    by_cases hP : P (toRecord job) = true
    · simp only [hP, if_true, failuresLeft]
      split_ifs <;> omega
    · simp [hP]

/-- The failures of a whole batch: every job of it is handed over once, loses one of its
remaining failures, and waits for its re-submission unless that was its last. -/
theorem account_failures {σ : Type} (p : Pool σ) (m : Nat) (hp : Failing p m)
    (P : Record → Bool) (e : GoError) (B : List Job)
    (hB : ∀ j ∈ B, -(2 : Int) ^ 63 ≤ j.Attempts) :
    (B.map toRecord).countP P
          + weight (m : Int) P ((spawned (B.flatMap fun job => p.handleFailure job e)).map Prod.fst)
        = weight (m : Int) P B
      ∧ (∀ j ∈ (spawned (B.flatMap fun job => p.handleFailure job e)).map Prod.fst,
          -(2 : Int) ^ 63 ≤ j.Attempts)
      ∧ (spawned (B.flatMap fun job => p.handleFailure job e)).length ≤ B.length := by
  induction B with
  | nil => simp [weight, spawned]
  | cons j js ih =>
    have hj : -(2 : Int) ^ 63 ≤ j.Attempts := hB j (List.mem_cons_self _ _)
    obtain ⟨h1, h2, h3⟩ := ih (fun x hx => hB x (List.mem_cons_of_mem _ hx))
    have hone := weight_handleFailure p m hp P j e hj
    have hsp := spawned_handleFailure p m hp j e hj
    simp only [List.flatMap_cons, spawned_append, List.map_append, weight_append,
      List.map_cons, List.countP_cons, List.length_append, List.length_cons]
    refine ⟨?_, ?_, ?_⟩
    · simp only [weight, Nat.add_zero] at hone ⊢
      omega
    · intro x hx
      rw [List.mem_append] at hx
      rcases hx with hx | hx
      · rw [hsp] at hx
        by_cases hlt : j.Attempts < (m : Int)
        · simp only [hlt, if_true, List.map_cons, List.map_nil, List.mem_singleton] at hx
          subst hx
          show -(2 : Int) ^ 63 ≤ j.Attempts + 1
          omega
        · simp [hlt] at hx
      · exact h2 x hx
    · have hlen : (spawned (p.handleFailure j e)).length ≤ 1 := by
        rw [hsp]
        split_ifs <;> simp
      omega

/-- A flush against the failing sink, in numbers. -/
theorem account_flush {σ : Type} (p : Pool σ) (m : Nat) (hp : Failing p m)
    (P : Record → Bool) (force : Bool) (sink : σ) (B : List Job)
    (hB : ∀ j ∈ B, -(2 : Int) ^ 63 ≤ j.Attempts) :
    handed P (p.flush force sink B).effects
          + weight (m : Int) P ((spawned (p.flush force sink B).effects).map Prod.fst)
        = weight (m : Int) P B
      ∧ (p.flush force sink B).buffer = []
      ∧ (∀ j ∈ (spawned (p.flush force sink B).effects).map Prod.fst,
          -(2 : Int) ^ 63 ≤ j.Attempts)
      ∧ (spawned (p.flush force sink B).effects).length ≤ B.length
      ∧ (errorCauses (p.flush force sink B).effects).length
          = ((batches (p.flush force sink B).effects).flatten).length
      ∧ ((batches (p.flush force sink B).effects).flatten).length = B.length := by
  cases B with
  | nil =>
    have h : p.flush force sink [] = { effects := [], sink := sink, buffer := [] } := rfl
    simp [h, handed, batches, spawned, weight, errorCauses]
  | cons b bs =>
    cases herr : (p.processor.ProcessBatch sink ((b :: bs).map toRecord)).2 with
    | none => exact absurd herr (hp.fails _ _)
    | some e =>
      obtain ⟨h1, h2, h3⟩ := account_failures p m hp P e (b :: bs) hB
      obtain ⟨_, _, g3, g4⟩ := failures_projections p e (b :: bs)
      rw [flush_failure p force sink (b :: bs) e (by simp) herr]
      refine ⟨?_, rfl, ?_, ?_, ?_, ?_⟩
      · simp only [handed, batches, spawned, g4, List.flatten_cons, List.flatten_nil,
          List.append_nil]
        exact h1
      · simpa [spawned] using h2
      · simpa [spawned] using h3
      · simp only [errorCauses, batches]
        rw [g3, g4]
        simp
      · simp only [batches]
        rw [g4]
        simp

theorem accounted_flush {σ : Type} (p : Pool σ) (m : Nat) (hp : Failing p m)
    (P : Record → Bool) (force : Bool) (sink : σ) (B : List Job)
    (hB : ∀ j ∈ B, -(2 : Int) ^ 63 ≤ j.Attempts) :
    Accounted m P B (p.flush force sink B) := by
  obtain ⟨h1, h2, h3, h4, h5, h6⟩ := account_flush p m hp P force sink B hB
  refine ⟨?_, h3, ?_, h5, ?_, ?_⟩
  · rw [h2]
    simp only [weight, Nat.add_zero]
    exact h1
  · rw [h2]
    simp
  · rw [h6]
    exact h4
  · rw [h2, h6]
    simp

/-- A tick, a cancellation or the closed queue: the buffer is flushed. -/
theorem accounted_flushing {σ : Type} (p : Pool σ) (m : Nat) (hp : Failing p m)
    (P : Record → Bool) (sink : σ) (B : List Job)
    (hB : ∀ j ∈ B, -(2 : Int) ^ 63 ≤ j.Attempts) (ev : WorkerEvent)
    (hev : ev = .tick ∨ ev = .ctxDone ∨ ev = .recvClosed) :
    Accounted m P B (p.handleEvent sink B ev).1 := by
  rcases hev with h | h | h
  · subst h
    exact accounted_flush p m hp P false sink B hB
  · subst h
    exact accounted_flush p m hp P true sink B hB
  · subst h
    exact accounted_flush p m hp P true sink B hB

/-- A received job: it is appended, and the buffer is flushed when full. -/
theorem accounted_recv {σ : Type} (p : Pool σ) (m : Nat) (hp : Failing p m)
    (P : Record → Bool) (sink : σ) (B : List Job)
    (hB : ∀ j ∈ B, -(2 : Int) ^ 63 ≤ j.Attempts) (job : Job)
    (hjob : -(2 : Int) ^ 63 ≤ job.Attempts) :
    Accounted m P (B ++ [job]) (p.handleEvent sink B (.recv job)).1 := by
  have hB2 : ∀ j ∈ B ++ [job], -(2 : Int) ^ 63 ≤ j.Attempts := by
    intro j hj
    rw [List.mem_append, List.mem_singleton] at hj
    rcases hj with hj | hj
    · exact hB j hj
    · rw [hj]
      exact hjob
  by_cases hsize : ((B ++ [job]).length : Int) ≥ p.opts.BatchSize
  · have h : (p.handleEvent sink B (.recv job)).1 = p.flush true sink (B ++ [job]) := by
      simp only [Pool.handleEvent, hsize, if_true]
    rw [h]
    exact accounted_flush p m hp P true sink (B ++ [job]) hB2
  · have h : (p.handleEvent sink B (.recv job)).1
        = { effects := [], sink := sink, buffer := B ++ [job] } := by
      simp only [Pool.handleEvent, hsize, if_false]
    rw [h]
    exact ⟨by simp [handed, batches, spawned, weight], by simp [spawned], hB2,
      by simp [errorCauses, batches], by simp [spawned], by simp [batches]⟩

theorem mem_set_buffer (ws : List Slot) (i : Nat) (w2 : Slot) (x : Job)
    (hx : x ∈ ((ws.set i w2).map Slot.buffer).flatten) :
    x ∈ w2.buffer ∨ x ∈ (ws.map Slot.buffer).flatten := by
  induction ws generalizing i with
  | nil => simp at hx
  | cons y ys ih =>
    cases i with
    | zero =>
      simp only [List.set_cons_zero, List.map_cons, List.flatten_cons, List.mem_append] at hx ⊢
      rcases hx with h | h
      · exact Or.inl h
      · exact Or.inr (Or.inr h)
    | succ i =>
      simp only [List.set_cons_succ, List.map_cons, List.flatten_cons, List.mem_append] at hx ⊢
      rcases hx with h | h
      · exact Or.inr (Or.inl h)
      · rcases ih i h with h2 | h2
        · exact Or.inl h2
        · exact Or.inr (Or.inr h2)

theorem mem_buffer_of_getElem? (ws : List Slot) (i : Nat) (w : Slot) (hw : ws[i]? = some w)
    (x : Job) (hx : x ∈ w.buffer) : x ∈ (ws.map Slot.buffer).flatten := by
  have hmem : w ∈ ws := List.getElem?_mem hw
  simp only [List.mem_flatten, List.mem_map]
  exact ⟨w.buffer, ⟨w, hmem, rfl⟩, hx⟩

theorem worker_eq {σ : Type} (s : System σ) (i : Nat) (ev : WorkerEvent) (w : Slot)
    (hw : s.workers[i]? = some w) (hrun : w.returned = false) :
    s.worker i ev
      = { s with
          sink := (s.pool.handleEvent s.sink w.buffer ev).1.sink
          workers := s.workers.set i
            { buffer := (s.pool.handleEvent s.sink w.buffer ev).1.buffer
              returned := (s.pool.handleEvent s.sink w.buffer ev).2 }
          timers := s.timers ++ spawned (s.pool.handleEvent s.sink w.buffer ev).1.effects
          trace := s.trace ++ (s.pool.handleEvent s.sink w.buffer ev).1.effects } := by
  simp [System.worker, hw, hrun]

theorem worker_skip {σ : Type} (s : System σ) (i : Nat) (ev : WorkerEvent)
    (hw : s.workers[i]? = none ∨ ∃ w, s.workers[i]? = some w ∧ w.returned = true) :
    s.worker i ev = s := by
  rcases hw with h | ⟨w, h, hret⟩
  · simp [System.worker, h]
  · simp [System.worker, h, hret]

/-- What a running worker does to the accounts of the pool when it handles an event. -/
theorem worker_account {σ : Type} (m : Nat) (P : Record → Bool) (s : System σ) (i : Nat)
    (ev : WorkerEvent) (w : Slot) (hw : s.workers[i]? = some w) (hrun : w.returned = false)
    (before : List Job)
    (hacc : Accounted m P before (s.pool.handleEvent s.sink w.buffer ev).1)
    (hrange : ∀ j ∈ s.live, -(2 : Int) ^ 63 ≤ j.Attempts)
    (herrs : (errorCauses s.trace).length = ((batches s.trace).flatten).length) :
    handed P (s.worker i ev).trace + weight (m : Int) P (s.worker i ev).live
          + weight (m : Int) P w.buffer
        = handed P s.trace + weight (m : Int) P s.live + weight (m : Int) P before
      ∧ (∀ j ∈ (s.worker i ev).live, -(2 : Int) ^ 63 ≤ j.Attempts)
      ∧ (errorCauses (s.worker i ev).trace).length
          = ((batches (s.worker i ev).trace).flatten).length
      ∧ (s.worker i ev).pool = s.pool
      ∧ (s.worker i ev).abandoned = s.abandoned
      ∧ (s.worker i ev).accepted = s.accepted := by
  rw [worker_eq s i ev w hw hrun]
  have hset := weight_set_buffer (m : Int) P s.workers i w
    { buffer := (s.pool.handleEvent s.sink w.buffer ev).1.buffer
      returned := (s.pool.handleEvent s.sink w.buffer ev).2 } hw
  have hbal := hacc.balance
  refine ⟨?_, ?_, ?_, rfl, rfl, rfl⟩
  · simp only [System.live, handed_append, weight_append, List.map_append] at hset ⊢
    omega
  · intro j hj
    simp only [System.live, List.mem_append, List.map_append] at hj
    rcases hj with (hj | hj) | hj | hj
    · exact hrange j (by simp only [System.live, List.mem_append]; exact Or.inl (Or.inl hj))
    · rcases mem_set_buffer _ _ _ _ hj with h | h
      · exact hacc.bufferRange j h
      · exact hrange j (by simp only [System.live, List.mem_append]; exact Or.inl (Or.inr h))
    · exact hrange j (by simp only [System.live, List.mem_append]; exact Or.inr hj)
    · exact hacc.spawnedRange j hj
  · have he := hacc.errs
    simp only [errorCauses_append, batches_append, List.flatten_append, List.length_append]
    omega

theorem Submit_cases {σ : Type} (p : Pool σ) (job : Job) :
    (p.closed = true ∧ p.Submit job = .ret (false, p))
      ∨ (p.closed = false ∧ p.jobs.closed = false ∧ p.jobs.buf.length < p.jobs.cap
          ∧ p.Submit job
            = .ret (true, { p with jobs := { p.jobs with buf := p.jobs.buf ++ [job] } }))
      ∨ p.Submit job = .blocks ∨ p.Submit job = .panics := by
  by_cases hc : p.closed = true
  · left
    exact ⟨hc, by simp [Pool.Submit, hc]⟩
  · have hc2 : p.closed = false := by simpa using hc
    by_cases hj : p.jobs.closed = true
    · right
      right
      right
      simp [Pool.Submit, hc2, hj]
    · have hj2 : p.jobs.closed = false := by simpa using hj
      by_cases hroom : p.jobs.buf.length < p.jobs.cap
      · right
        left
        exact ⟨hc2, hj2, hroom, by simp [Pool.Submit, hc2, hj2, hroom]⟩
      · right
        right
        left
        simp [Pool.Submit, hc2, hj2, hroom, Chan.send]

theorem Stop_cases {σ : Type} (p : Pool σ) :
    p.Stop = .ret p
      ∨ p.Stop = .ret { p with closed := true, jobs := { p.jobs with closed := true } }
      ∨ p.Stop = .panics := by
  by_cases hc : p.closed = true
  · left
    simp [Pool.Stop, hc]
  · have hc2 : p.closed = false := by simpa using hc
    by_cases hj : p.jobs.closed = true
    · right
      right
      simp [Pool.Stop, hc2, Chan.close, hj]
    · have hj2 : p.jobs.closed = false := by simpa using hj
      right
      left
      simp [Pool.Stop, hc2, Chan.close, hj2]

theorem mem_eraseIdx_fst (ts : List (Job × Int)) (k : Nat) (x : Job)
    (hx : x ∈ (ts.eraseIdx k).map Prod.fst) : x ∈ ts.map Prod.fst := by
  induction ts generalizing k with
  | nil => simp at hx
  | cons y ys ih =>
    cases k with
    | zero =>
      simp only [List.eraseIdx_cons_zero] at hx
      simp only [List.map_cons, List.mem_cons]
      exact Or.inr hx
    | succ k =>
      simp only [List.eraseIdx_cons_succ, List.map_cons, List.mem_cons] at hx ⊢
      rcases hx with h | h
      · exact Or.inl h
      · exact Or.inr (ih k h)

/-- A worker event keeps the invariant. -/
theorem balanced_worker {σ : Type} (m : Nat) (P : Record → Bool) (s : System σ)
    (hs : Balanced m P s) (i : Nat) (ev : WorkerEvent)
    (hev : ev = .tick ∨ ev = .ctxDone ∨ ev = .recvClosed) :
    Balanced m P (s.worker i ev) := by
  cases hw : s.workers[i]? with
  | none => rw [worker_skip s i ev (Or.inl hw)]; exact hs
  | some w =>
    by_cases hret : w.returned = true
    · rw [worker_skip s i ev (Or.inr ⟨w, hw, hret⟩)]
      exact hs
    · have hrun : w.returned = false := by simpa using hret
      have hwr : ∀ j ∈ w.buffer, -(2 : Int) ^ 63 ≤ j.Attempts := fun j hj =>
        hs.range j (by
          simp only [System.live, List.mem_append]
          exact Or.inl (Or.inr (mem_buffer_of_getElem? _ i w hw j hj)))
      have hacc := accounted_flushing s.pool m hs.failing P s.sink w.buffer hwr ev hev
      obtain ⟨h1, h2, h3, h4, h5, h6⟩ :=
        worker_account m P s i ev w hw hrun w.buffer hacc hs.range hs.errs
      refine ⟨?_, h2, h3, ?_⟩
      · rw [h5, h6]
        have hb := hs.balance
        omega
      · rw [h4]
        exact hs.failing

/-- Worker `i` receives job `job`, which is in the pool `s` and not in `s0`, the same
pool with the job taken from the queue: the invariant is kept. -/
theorem balanced_pop {σ : Type} (m : Nat) (P : Record → Bool) (s s0 : System σ)
    (hs : Balanced m P s) (job : Job) (hlive : s.live = job :: s0.live)
    (htr : s0.trace = s.trace) (hacc0 : s0.accepted = s.accepted)
    (hab0 : s0.abandoned = s.abandoned) (hfail : Failing s0.pool m)
    (i : Nat) (w : Slot) (hw : s0.workers[i]? = some w) (hrun : w.returned = false) :
    Balanced m P (s0.worker i (.recv job)) := by
  have hwt : weight (m : Int) P s.live
      = weight (m : Int) P [job] + weight (m : Int) P s0.live := by
    rw [hlive]
    simp only [weight, Nat.add_zero]
  have hjob : -(2 : Int) ^ 63 ≤ job.Attempts :=
    hs.range job (by rw [hlive]; exact List.mem_cons_self _ _)
  have hrange0 : ∀ j ∈ s0.live, -(2 : Int) ^ 63 ≤ j.Attempts :=
    fun j hj => hs.range j (by rw [hlive]; exact List.mem_cons_of_mem _ hj)
  have hwr : ∀ j ∈ w.buffer, -(2 : Int) ^ 63 ≤ j.Attempts := fun j hj =>
    hrange0 j (by
      simp only [System.live, List.mem_append]
      exact Or.inl (Or.inr (mem_buffer_of_getElem? _ i w hw j hj)))
  have hacc := accounted_recv s0.pool m hfail P s0.sink w.buffer hwr job hjob
  have herrs0 : (errorCauses s0.trace).length = ((batches s0.trace).flatten).length := by
    rw [htr]
    exact hs.errs
  obtain ⟨h1, h2, h3, h4, h5, h6⟩ :=
    worker_account m P s0 i (.recv job) w hw hrun (w.buffer ++ [job]) hacc hrange0 herrs0
  refine ⟨?_, h2, h3, ?_⟩
  · rw [h5, h6, hab0, hacc0]
    have hb := hs.balance
    rw [weight_append] at h1
    rw [htr] at h1
    omega
  · rw [h4]
    exact hfail

/-- Every event of the started pool keeps the invariant, as long as the source submits
jobs whose `Attempts` is a Go int. -/
theorem balanced_act {σ : Type} (m : Nat) (P : Record → Bool) (s : System σ)
    (hs : Balanced m P s) (ev : SysEvent)
    (hev : ∀ job, ev = .submit job → -(2 : Int) ^ 63 ≤ job.Attempts) :
    Balanced m P (s.act ev) := by
  · have hflag : ∀ b : Bool, Balanced m P { s with panicked := b } := fun b =>
      ⟨hs.balance, hs.range, hs.errs, hs.failing⟩
    cases ev with
    | submit job =>
      simp only [System.act]
      have hjob := hev job rfl
      rcases Submit_cases s.pool job with ⟨_, h⟩ | ⟨_, _, _, h⟩ | h | h
      · simp only [h]
        exact hs
      · simp only [h]
        refine ⟨?_, ?_, hs.errs, ⟨hs.failing.retries, hs.failing.inRange, hs.failing.fails⟩⟩
        · have hb := hs.balance
          simp only [System.live, weight_append] at hb ⊢
          omega
        · intro j hj
          simp only [System.live, List.mem_append, List.mem_singleton] at hj
          rcases hj with ((hj | hj) | hj) | hj
          · exact hs.range j (by simp only [System.live, List.mem_append]; tauto)
          · rw [hj]
            exact hjob
          · exact hs.range j (by simp only [System.live, List.mem_append]; tauto)
          · exact hs.range j (by simp only [System.live, List.mem_append]; tauto)
      · simp only [h]
        exact hs
      · simp only [h]
        exact hflag true
    | cancel =>
      simp only [System.act]
      exact ⟨hs.balance, hs.range, hs.errs, hs.failing⟩
    | stop =>
      simp only [System.act]
      rcases Stop_cases s.pool with h | h | h
      · simp only [h]
        exact hs
      · simp only [h]
        exact ⟨hs.balance, hs.range, hs.errs,
          ⟨hs.failing.retries, hs.failing.inRange, hs.failing.fails⟩⟩
      · simp only [h]
        exact hflag true
    | ctxDone i =>
      simp only [System.act]
      by_cases hc : s.cancelled = true
      · simp only [hc, if_true]
        exact balanced_worker m P s hs i .ctxDone (Or.inr (Or.inl rfl))
      · simp only [hc, Bool.false_eq_true, if_false]
        exact hs
    | tick i =>
      simp only [System.act]
      exact balanced_worker m P s hs i .tick (Or.inl rfl)
    | recv i =>
      simp only [System.act]
      cases hw : s.workers[i]? with
      | none => exact hs
      | some w =>
        simp only
        by_cases hret : w.returned = true
        · simp only [hret, if_true]
          exact hs
        · have hrun : w.returned = false := by simpa using hret
          simp only [hrun, Bool.false_eq_true, if_false]
          cases hq : s.pool.jobs.buf with
          | nil =>
            by_cases hcl : s.pool.jobs.closed = true
            · simp only [hcl, if_true]
              exact balanced_worker m P s hs i .recvClosed (Or.inr (Or.inr rfl))
            · simp only [hcl, Bool.false_eq_true, if_false]
              exact hs
          | cons job rest =>
            exact balanced_pop m P s
              { s with pool := { s.pool with jobs := { s.pool.jobs with buf := rest } } }
              hs job
              (by simp only [System.live, hq, List.cons_append]) rfl rfl rfl
              ⟨hs.failing.retries, hs.failing.inRange, hs.failing.fails⟩ i w hw hrun
    | timer k =>
      simp only [System.act]
      cases hk : s.timers[k]? with
      | none => exact hs
      | some jd =>
        obtain ⟨job, d⟩ := jd
        have hw := weight_eraseIdx (m : Int) P s.timers k job d hk
        have hmem : job ∈ s.timers.map Prod.fst :=
          List.mem_map.mpr ⟨(job, d), List.getElem?_mem hk, rfl⟩
        have hjob : -(2 : Int) ^ 63 ≤ job.Attempts :=
          hs.range job (by simp only [System.live, List.mem_append]; exact Or.inr hmem)
        simp only
        rcases Submit_cases s.pool job with ⟨_, h⟩ | ⟨_, _, _, h⟩ | h | h
        · simp only [h]
          refine ⟨?_, ?_, hs.errs, hs.failing⟩
          · have hb := hs.balance
            simp only [System.live, weight_append] at hb ⊢
            omega
          · intro j hj
            simp only [System.live, List.mem_append] at hj
            rcases hj with (hj | hj) | hj
            · exact hs.range j (by simp only [System.live, List.mem_append]; tauto)
            · exact hs.range j (by simp only [System.live, List.mem_append]; tauto)
            · exact hs.range j (by
                simp only [System.live, List.mem_append]
                exact Or.inr (mem_eraseIdx_fst _ _ _ hj))
        · simp only [h]
          refine ⟨?_, ?_, hs.errs, ⟨hs.failing.retries, hs.failing.inRange, hs.failing.fails⟩⟩
          · have hb := hs.balance
            simp only [System.live, weight_append] at hb ⊢
            omega
          · intro j hj
            simp only [System.live, List.mem_append, List.mem_singleton] at hj
            rcases hj with ((hj | hj) | hj) | hj
            · exact hs.range j (by simp only [System.live, List.mem_append]; tauto)
            · rw [hj]
              exact hjob
            · exact hs.range j (by simp only [System.live, List.mem_append]; tauto)
            · exact hs.range j (by
                simp only [System.live, List.mem_append]
                exact Or.inr (mem_eraseIdx_fst _ _ _ hj))
        · simp only [h]
          exact hs
        · simp only [h]
          exact hflag true
    | timerDone k =>
      simp only [System.act]
      by_cases hc : s.cancelled = true
      · simp only [hc, if_true]
        cases hk : s.timers[k]? with
        | none => exact hs
        | some jd =>
          obtain ⟨job, d⟩ := jd
          have hw := weight_eraseIdx (m : Int) P s.timers k job d hk
          simp only
          refine ⟨?_, ?_, hs.errs, hs.failing⟩
          · have hb := hs.balance
            simp only [System.live, weight_append] at hb ⊢
            omega
          · intro j hj
            simp only [System.live, List.mem_append] at hj
            rcases hj with (hj | hj) | hj
            · exact hs.range j (by simp only [System.live, List.mem_append]; tauto)
            · exact hs.range j (by simp only [System.live, List.mem_append]; tauto)
            · exact hs.range j (by
                simp only [System.live, List.mem_append]
                exact Or.inr (mem_eraseIdx_fst _ _ _ hj))
      · simp only [hc, Bool.false_eq_true, if_false]
        exact hs

theorem balanced_step {σ : Type} (m : Nat) (P : Record → Bool) (s : System σ)
    (hs : Balanced m P s) (ev : SysEvent)
    (hev : ∀ job, ev = .submit job → -(2 : Int) ^ 63 ≤ job.Attempts) :
    Balanced m P (s.step ev) := by
  unfold System.step
  split_ifs
  · exact hs
  · exact balanced_act m P s hs ev hev

theorem balanced_run {σ : Type} (m : Nat) (P : Record → Bool) (evs : List SysEvent)
    (s : System σ) (hs : Balanced m P s)
    (hev : ∀ job, SysEvent.submit job ∈ evs → -(2 : Int) ^ 63 ≤ job.Attempts) :
    Balanced m P (s.run evs) := by
  induction evs generalizing s with
  | nil => exact hs
  | cons ev evs ih =>
    have h1 := balanced_step m P s hs ev (fun job hj => hev job (by rw [hj]; simp))
    exact ih (s.step ev) h1 (fun job hj => hev job (List.mem_cons_of_mem _ hj))

theorem balanced_Start {σ : Type} (m : Nat) (P : Record → Bool) (p : Pool σ)
    (hp : Failing p m) (hq : p.jobs.buf = []) (sink : σ) :
    Balanced m P (System.Start p sink) := by
  have hbuf : ∀ n : Nat, ((List.replicate n ({ buffer := [], returned := false } : Slot)).map
      Slot.buffer).flatten = [] := by
    intro n
    induction n with
    | zero => rfl
    | succ n ih => simp [List.replicate_succ]
  have hlive : (System.Start p sink).live = [] := by
    simp [System.live, System.Start, hq, hbuf]
  refine ⟨?_, ?_, rfl, hp⟩
  · rw [hlive]
    simp [System.Start, handed, batches, weight]
  · rw [hlive]
    simp

/-- The trace only grows. -/
theorem trace_step {σ : Type} (s : System σ) (ev : SysEvent) :
    ∃ extra, (s.step ev).trace = s.trace ++ extra := by
  have hworker : ∀ (t : System σ) (i : Nat) (wev : WorkerEvent),
      ∃ extra, (t.worker i wev).trace = t.trace ++ extra := by
    intro t i wev
    cases hw : t.workers[i]? with
    | none => exact ⟨[], by rw [worker_skip t i wev (Or.inl hw)]; simp⟩
    | some w =>
      by_cases hret : w.returned = true
      · exact ⟨[], by rw [worker_skip t i wev (Or.inr ⟨w, hw, hret⟩)]; simp⟩
      · have hrun : w.returned = false := by simpa using hret
        exact ⟨_, by rw [worker_eq t i wev w hw hrun]⟩
  unfold System.step
  split_ifs
  · exact ⟨[], by simp⟩
  · cases ev with
    | submit job =>
      simp only [System.act]
      rcases Submit_cases s.pool job with ⟨_, h⟩ | ⟨_, _, _, h⟩ | h | h <;>
        simp only [h] <;> exact ⟨[], by simp⟩
    | cancel => exact ⟨[], by simp [System.act]⟩
    | stop =>
      simp only [System.act]
      rcases Stop_cases s.pool with h | h | h <;> simp only [h] <;> exact ⟨[], by simp⟩
    | ctxDone i =>
      simp only [System.act]
      split_ifs
      · exact hworker s i .ctxDone
      · exact ⟨[], by simp⟩
    | tick i => exact hworker s i .tick
    | recv i =>
      simp only [System.act]
      cases hw : s.workers[i]? with
      | none => exact ⟨[], by simp⟩
      | some w =>
        simp only
        by_cases hret : w.returned = true
        · simp only [hret, if_true]
          exact ⟨[], by simp⟩
        · simp only [hret, Bool.false_eq_true, if_false]
          cases hq : s.pool.jobs.buf with
          | nil =>
            by_cases hcl : s.pool.jobs.closed = true
            · simp only [hcl, if_true]
              exact hworker s i .recvClosed
            · simp only [hcl, Bool.false_eq_true, if_false]
              exact ⟨[], by simp⟩
          | cons job rest =>
            exact hworker
              { s with pool := { s.pool with jobs := { s.pool.jobs with buf := rest } } } i
              (.recv job)
    | timer k =>
      simp only [System.act]
      cases hk : s.timers[k]? with
      | none => exact ⟨[], by simp⟩
      | some jd =>
        obtain ⟨job, d⟩ := jd
        simp only
        rcases Submit_cases s.pool job with ⟨_, h⟩ | ⟨_, _, _, h⟩ | h | h <;>
          simp only [h] <;> exact ⟨[], by simp⟩
    | timerDone k =>
      simp only [System.act]
      split_ifs
      · cases hk : s.timers[k]? with
        | none => exact ⟨[], by simp⟩
        | some jd => exact ⟨[], by simp⟩
      · exact ⟨[], by simp⟩

theorem handed_mono_run {σ : Type} (P : Record → Bool) (evs : List SysEvent) (s : System σ) :
    handed P s.trace ≤ handed P (s.run evs).trace := by
  induction evs generalizing s with
  | nil => exact le_refl _
  | cons ev evs ih =>
    obtain ⟨extra, h⟩ := trace_step s ev
    have h2 := ih (s.step ev)
    have h3 : handed P s.trace ≤ handed P (s.step ev).trace := by
      rw [h, handed_append]
      omega
    exact le_trans h3 h2

/-- The log of accepted jobs grows only by what the source submits. -/
theorem accepted_step {σ : Type} (m : Int) (P : Record → Bool) (s : System σ) (ev : SysEvent)
    (hev : ∀ job, ev = .submit job → P (toRecord job) = false) :
    weight m P (s.step ev).accepted = weight m P s.accepted := by
  have hworker : ∀ (t : System σ) (i : Nat) (wev : WorkerEvent),
      (t.worker i wev).accepted = t.accepted := by
    intro t i wev
    cases hw : t.workers[i]? with
    | none => rw [worker_skip t i wev (Or.inl hw)]
    | some w =>
      by_cases hret : w.returned = true
      · rw [worker_skip t i wev (Or.inr ⟨w, hw, hret⟩)]
      · have hrun : w.returned = false := by simpa using hret
        rw [worker_eq t i wev w hw hrun]
  unfold System.step
  split_ifs
  · rfl
  · cases ev with
    | submit job =>
      have hP := hev job rfl
      simp only [System.act]
      rcases Submit_cases s.pool job with ⟨_, h⟩ | ⟨_, _, _, h⟩ | h | h <;> simp only [h]
      simp [weight_append, weight, hP]
    | cancel => rfl
    | stop =>
      simp only [System.act]
      rcases Stop_cases s.pool with h | h | h <;> simp only [h]
    | ctxDone i =>
      simp only [System.act]
      split_ifs
      · rw [hworker]
      · rfl
    | tick i =>
      simp only [System.act]
      rw [hworker]
    | recv i =>
      simp only [System.act]
      cases hw : s.workers[i]? with
      | none => rfl
      | some w =>
        simp only
        by_cases hret : w.returned = true
        · simp only [hret, if_true]
        · simp only [hret, Bool.false_eq_true, if_false]
          cases hq : s.pool.jobs.buf with
          | nil =>
            by_cases hcl : s.pool.jobs.closed = true
            · simp only [hcl, if_true]
              rw [hworker]
            · simp only [hcl, Bool.false_eq_true, if_false]
          | cons job rest =>
            simp only
            rw [hworker]
    | timer k =>
      simp only [System.act]
      cases hk : s.timers[k]? with
      | none => rfl
      | some jd =>
        obtain ⟨job, d⟩ := jd
        simp only
        rcases Submit_cases s.pool job with ⟨_, h⟩ | ⟨_, _, _, h⟩ | h | h <;> simp only [h]
    | timerDone k =>
      simp only [System.act]
      split_ifs
      · cases hk : s.timers[k]? with
        | none => rfl
        | some jd => rfl
      · rfl

theorem accepted_run {σ : Type} (m : Int) (P : Record → Bool) (evs : List SysEvent)
    (s : System σ) (hev : ∀ job, SysEvent.submit job ∈ evs → P (toRecord job) = false) :
    weight m P (s.run evs).accepted = weight m P s.accepted := by
  induction evs generalizing s with
  | nil => rfl
  | cons ev evs ih =>
    have h1 := accepted_step m P s ev (fun job hj => hev job (by rw [hj]; simp))
    have h2 := ih (s.step ev) (fun job hj => hev job (List.mem_cons_of_mem _ hj))
    show weight m P ((s.step ev).run evs).accepted = _
    rw [h2, h1]

theorem Submit_open {σ : Type} (p : Pool σ) (job : Job) (hc : p.closed = false)
    (hj : p.jobs.closed = false) :
    p.Submit job
      = if p.jobs.buf.length < p.jobs.cap then
          .ret (true, { p with jobs := { p.jobs with buf := p.jobs.buf ++ [job] } })
        else .blocks := by
  by_cases hroom : p.jobs.buf.length < p.jobs.cap
  · simp [Pool.Submit, hc, hj, hroom]
  · simp [Pool.Submit, hc, hj, hroom, Chan.send]

theorem running_worker {σ : Type} (s : System σ) (hs : Running s) (i : Nat)
    (ev : WorkerEvent) (hev : ev = .tick ∨ ∃ job, ev = .recv job) :
    Running (s.worker i ev) := by
  cases hw : s.workers[i]? with
  | none => rw [worker_skip s i ev (Or.inl hw)]; exact hs
  | some w =>
    by_cases hret : w.returned = true
    · rw [worker_skip s i ev (Or.inr ⟨w, hw, hret⟩)]
      exact hs
    · have hrun : w.returned = false := by simpa using hret
      have hsnd : (s.pool.handleEvent s.sink w.buffer ev).2 = false := by
        rcases hev with h | ⟨job, h⟩
        · subst h
          rfl
        · subst h
          simp only [Pool.handleEvent]
          split_ifs <;> rfl
      rw [worker_eq s i ev w hw hrun]
      refine ⟨hs.notCancelled, hs.poolOpen, hs.chanOpen, hs.noPanic, ?_, hs.nothingLost,
        hs.room, ?_⟩
      · intro x hx
        rcases List.mem_or_eq_of_mem_set hx with h | h
        · exact hs.workersRun x h
        · rw [h]
          exact hsnd
      · simp only [List.length_set]
        exact hs.someWorker

/-- Events other than the cancellation and `Stop` leave the pool running. -/
theorem running_step {σ : Type} (s : System σ) (hs : Running s) (ev : SysEvent)
    (hev : ev.keepsRunning = true) : Running (s.step ev) := by
  unfold System.step
  simp only [hs.noPanic, Bool.false_eq_true, if_false]
  cases ev with
  | cancel => simp [SysEvent.keepsRunning] at hev
  | stop => simp [SysEvent.keepsRunning] at hev
  | submit job =>
    simp only [System.act, Submit_open s.pool job hs.poolOpen hs.chanOpen]
    split_ifs
    · exact ⟨hs.notCancelled, hs.poolOpen, hs.chanOpen, hs.noPanic, hs.workersRun,
        hs.nothingLost, hs.room, hs.someWorker⟩
    · exact hs
  | ctxDone i =>
    simp only [System.act, hs.notCancelled, Bool.false_eq_true, if_false]
    exact hs
  | tick i => exact running_worker s hs i .tick (Or.inl rfl)
  | recv i =>
    simp only [System.act]
    cases hw : s.workers[i]? with
    | none => exact hs
    | some w =>
      simp only [hs.workersRun w (List.getElem?_mem hw), Bool.false_eq_true, if_false]
      cases hq : s.pool.jobs.buf with
      | nil =>
        simp only [hs.chanOpen, Bool.false_eq_true, if_false]
        exact hs
      | cons job rest =>
        exact running_worker
          { s with pool := { s.pool with jobs := { s.pool.jobs with buf := rest } } }
          ⟨hs.notCancelled, hs.poolOpen, hs.chanOpen, hs.noPanic, hs.workersRun,
            hs.nothingLost, hs.room, hs.someWorker⟩ i (.recv job) (Or.inr ⟨job, rfl⟩)
  | timer k =>
    simp only [System.act]
    cases hk : s.timers[k]? with
    | none => exact hs
    | some jd =>
      obtain ⟨job, d⟩ := jd
      simp only [Submit_open s.pool job hs.poolOpen hs.chanOpen]
      split_ifs
      · exact ⟨hs.notCancelled, hs.poolOpen, hs.chanOpen, hs.noPanic, hs.workersRun,
          hs.nothingLost, hs.room, hs.someWorker⟩
      · exact hs
  | timerDone k =>
    simp only [System.act, hs.notCancelled, Bool.false_eq_true, if_false]
    exact hs

theorem running_run {σ : Type} (evs : List SysEvent) (s : System σ) (hs : Running s)
    (hev : ∀ ev ∈ evs, ev.keepsRunning = true) : Running (s.run evs) := by
  induction evs generalizing s with
  | nil => exact hs
  | cons ev evs ih =>
    exact ih (s.step ev) (running_step s hs ev (hev ev (List.mem_cons_self _ _)))
      (fun e he => hev e (List.mem_cons_of_mem _ he))

theorem handed_true (t : List Effect) :
    handed (fun _ => true) t = ((batches t).flatten).length := by
  simp [handed]

/-- A running worker handles an event: the work of the pool goes down by what it handed to
the sink, apart from the jobs it took in. -/
theorem worker_work {σ : Type} (m : Nat) (s : System σ) (i : Nat) (ev : WorkerEvent)
    (w : Slot) (hw : s.workers[i]? = some w) (hrun : w.returned = false)
    (before : List Job)
    (hacc : Accounted m (fun _ => true) before (s.pool.handleEvent s.sink w.buffer ev).1) :
    (s.worker i ev).work (m : Int) + 3 * weight (m : Int) (fun _ => true) w.buffer
        + ((batches (s.pool.handleEvent s.sink w.buffer ev).1.effects).flatten).length
      ≤ s.work (m : Int) + 3 * weight (m : Int) (fun _ => true) before := by
  rw [worker_eq s i ev w hw hrun]
  have hset := weight_set_buffer (m : Int) (fun _ => true) s.workers i w
    { buffer := (s.pool.handleEvent s.sink w.buffer ev).1.buffer
      returned := (s.pool.handleEvent s.sink w.buffer ev).2 } hw
  have hbal := hacc.balance
  have hfew := hacc.fewer
  rw [handed_true] at hbal
  simp only [System.work, System.live, weight_append, List.map_append,
    List.length_append] at hset ⊢
  omega

theorem flatten_buffers_nil (ws : List Slot) (h : ∀ w ∈ ws, w.buffer = []) :
    (ws.map Slot.buffer).flatten = [] := by
  induction ws with
  | nil => rfl
  | cons w ws ih =>
    simp only [List.map_cons, List.flatten_cons, h w (List.mem_cons_self _ _), List.nil_append]
    exact ih (fun x hx => h x (List.mem_cons_of_mem _ hx))

theorem live_of_idle {σ : Type} (s : System σ) (h : s.idle) : s.live = [] := by
  obtain ⟨h1, h2, h3⟩ := h
  simp [System.live, h1, h3, flatten_buffers_nil s.workers h2]

/-- Worker `i` receives `job` from the head of the queue of `s`; `s0` is `s` with the job
taken out.  The work goes down. -/
theorem work_recv {σ : Type} (m : Nat) (s s0 : System σ) (job : Job)
    (hq : s.pool.jobs.buf = job :: s0.pool.jobs.buf) (hws : s0.workers = s.workers)
    (hts : s0.timers = s.timers) (hrange : ∀ j ∈ s.live, -(2 : Int) ^ 63 ≤ j.Attempts)
    (hfail : Failing s0.pool m) (i : Nat) (w : Slot) (hw : s0.workers[i]? = some w)
    (hrun : w.returned = false) :
    (s0.worker i (.recv job)).work (m : Int) < s.work (m : Int) := by
  have hjob : -(2 : Int) ^ 63 ≤ job.Attempts :=
    hrange job (by simp [System.live, hq])
  have hbuf : ∀ j ∈ w.buffer, -(2 : Int) ^ 63 ≤ j.Attempts := fun j hj =>
    hrange j (by
      simp only [System.live, List.mem_append]
      exact Or.inl (Or.inr (mem_buffer_of_getElem? s.workers i w (hws ▸ hw) j hj)))
  have hacc := accounted_recv s0.pool m hfail (fun _ => true) s0.sink w.buffer hbuf job hjob
  have hwork := worker_work m s0 i (.recv job) w hw hrun (w.buffer ++ [job]) hacc
  have hpos := failuresLeft_pos (m : Int) job
  have h0 : s0.work (m : Int) + 3 * failuresLeft (m : Int) job + 1 = s.work (m : Int) := by
    simp only [System.work, System.live, hq, hws, hts, List.cons_append, weight, if_true,
      List.length_cons]
    omega
  simp only [weight_append, weight, if_true, Nat.add_zero] at hwork
  omega

/-- The goroutine that waits with `job` re-submits it into the empty queue of `s`; `s1` is
the pool afterwards.  The work goes down by one. -/
theorem work_timer {σ : Type} (m : Nat) (s s1 : System σ) (job : Job) (d : Int)
    (hq : s.pool.jobs.buf = []) (hq1 : s1.pool.jobs.buf = [job])
    (hws : s1.workers = s.workers) (hts : s.timers = (job, d) :: s1.timers) :
    s1.work (m : Int) + 1 = s.work (m : Int) := by
  have h1 : s1.live = job :: ((s.workers.map Slot.buffer).flatten ++ s1.timers.map Prod.fst) := by
    simp [System.live, hq1, hws]
  have h2 : s.live = (s.workers.map Slot.buffer).flatten ++ job :: s1.timers.map Prod.fst := by
    simp [System.live, hq, hts]
  simp only [System.work, h1, h2, hq, hq1, hts, weight_append, weight, List.length_cons,
    List.length_nil]
  omega

/-- A running pool that is not idle can take a step of a worker or of a retry goroutine
that leaves less work: receive when the queue holds a job, else flush a buffer that holds
one, else let a waiting goroutine re-submit into the empty queue. -/
theorem progress {σ : Type} (m : Nat) (s : System σ) (hr : Running s)
    (hb : Balanced m (fun _ => true) s) (hidle : ¬ s.idle) :
    ∃ ev : SysEvent, ev.internal = true ∧ (s.step ev).work (m : Int) < s.work (m : Int) := by
  have hstep : ∀ ev, s.step ev = s.act ev := by
    intro ev
    simp [System.step, hr.noPanic]
  cases hq : s.pool.jobs.buf with
  | cons job rest =>
    -- worker 0 receives the job at the head of the queue
    obtain ⟨w, hw⟩ : ∃ w, s.workers[0]? = some w := by
      cases hws : s.workers with
      | nil =>
        have := hr.someWorker
        rw [hws] at this
        simp at this
      | cons w ws => exact ⟨w, by simp⟩
    have hrun : w.returned = false := hr.workersRun w (List.getElem?_mem hw)
    refine ⟨.recv 0, rfl, ?_⟩
    rw [hstep]
    have hact : s.act (.recv 0)
        = System.worker
            { s with pool := { s.pool with jobs := { s.pool.jobs with buf := rest } } }
            0 (.recv job) := by
      simp only [System.act, hw, hrun, Bool.false_eq_true, if_false, hq]
    rw [hact]
    exact work_recv m s
      { s with pool := { s.pool with jobs := { s.pool.jobs with buf := rest } } }
      job hq rfl rfl hb.range
      ⟨hb.failing.retries, hb.failing.inRange, hb.failing.fails⟩ 0 w hw hrun
  | nil =>
    by_cases hbufs : ∀ w ∈ s.workers, w.buffer = []
    · -- a waiting goroutine re-submits into the empty queue
      cases ht : s.timers with
      | nil => exact absurd ⟨hq, hbufs, ht⟩ hidle
      | cons jd rest =>
        obtain ⟨job, d⟩ := jd
        refine ⟨.timer 0, rfl, ?_⟩
        rw [hstep]
        have hroom : s.pool.jobs.buf.length < s.pool.jobs.cap := by
          rw [hq]
          exact hr.room
        have hact : s.act (.timer 0)
            = { s with
                pool := { s.pool with jobs := { s.pool.jobs with buf := s.pool.jobs.buf ++ [job] } }
                timers := s.timers.eraseIdx 0 } := by
          simp only [System.act, ht, List.getElem?_cons_zero,
            Submit_open s.pool job hr.poolOpen hr.chanOpen, hroom, if_true]
        rw [hact]
        have h := work_timer m s
          { s with
            pool := { s.pool with jobs := { s.pool.jobs with buf := s.pool.jobs.buf ++ [job] } }
            timers := s.timers.eraseIdx 0 } job d hq (by simp [hq]) rfl (by simp [ht])
        omega
    · -- a worker with a job in its buffer takes its tick
      push_neg at hbufs
      obtain ⟨w, hwmem, hne⟩ := hbufs
      obtain ⟨i, hw⟩ := List.getElem?_of_mem hwmem
      have hrun : w.returned = false := hr.workersRun w hwmem
      refine ⟨.tick i, rfl, ?_⟩
      rw [hstep]
      have hact : s.act (.tick i) = s.worker i .tick := rfl
      rw [hact]
      have hbuf : ∀ j ∈ w.buffer, -(2 : Int) ^ 63 ≤ j.Attempts := fun j hj =>
        hb.range j (by
          simp only [System.live, List.mem_append]
          exact Or.inl (Or.inr (mem_buffer_of_getElem? s.workers i w hw j hj)))
      have hacc := accounted_flushing s.pool m hb.failing (fun _ => true) s.sink w.buffer hbuf
        .tick (Or.inl rfl)
      have hwork := worker_work m s i .tick w hw hrun w.buffer hacc
      have hcount := hacc.count
      have hempty : (s.pool.handleEvent s.sink w.buffer .tick).1.buffer = [] :=
        (account_flush s.pool m hb.failing (fun _ => true) false s.sink w.buffer hbuf).2.1
      rw [hempty] at hcount
      have hlen : 0 < w.buffer.length := List.length_pos.mpr hne
      simp only [List.length_nil, Nat.add_zero] at hcount
      omega

/-- Reachability: from every running pool the workers and retry goroutines can finish all
the work, by steps of their own. -/
theorem drain {σ : Type} (m : Nat) (n : Nat) (s : System σ) (hr : Running s)
    (hb : Balanced m (fun _ => true) s) (hn : s.work (m : Int) ≤ n) :
    ∃ more : List SysEvent, (∀ ev ∈ more, ev.internal = true) ∧ (s.run more).idle := by
  induction n generalizing s with
  | zero =>
    by_cases hidle : s.idle
    · exact ⟨[], by simp, hidle⟩
    · obtain ⟨ev, _, hlt⟩ := progress m s hr hb hidle
      omega
  | succ n ih =>
    by_cases hidle : s.idle
    · exact ⟨[], by simp, hidle⟩
    · obtain ⟨ev, hint, hlt⟩ := progress m s hr hb hidle
      have hkeep : ev.keepsRunning = true := by
        cases ev <;> simp_all [SysEvent.internal, SysEvent.keepsRunning]
      have hnot : ∀ job, ev = .submit job → -(2 : Int) ^ 63 ≤ job.Attempts := by
        intro job hj
        rw [hj] at hint
        simp [SysEvent.internal] at hint
      obtain ⟨more, hall, hdone⟩ := ih (s.step ev) (running_step s hr ev hkeep)
        (balanced_step m _ s hb ev hnot) (by omega)
      refine ⟨ev :: more, ?_, hdone⟩
      intro e he
      rcases List.mem_cons.mp he with h | h
      · rw [h]
        exact hint
      · exact hall e h

/-- The two logs only grow: an abandoned job stays abandoned, and a job is accepted only
by a `Submit` of the source. -/
theorem logs_step {σ : Type} (s : System σ) (ev : SysEvent) :
    (∃ extra, (s.step ev).abandoned = s.abandoned ++ extra)
      ∧ ∀ j ∈ (s.step ev).accepted, j ∈ s.accepted ∨ ev = .submit j := by
  have hworker : ∀ (t : System σ) (i : Nat) (wev : WorkerEvent),
      (t.worker i wev).abandoned = t.abandoned ∧ (t.worker i wev).accepted = t.accepted := by
    intro t i wev
    cases hw : t.workers[i]? with
    | none => rw [worker_skip t i wev (Or.inl hw)]; exact ⟨rfl, rfl⟩
    | some w =>
      by_cases hret : w.returned = true
      · rw [worker_skip t i wev (Or.inr ⟨w, hw, hret⟩)]; exact ⟨rfl, rfl⟩
      · have hrun : w.returned = false := by simpa using hret
        rw [worker_eq t i wev w hw hrun]
        exact ⟨rfl, rfl⟩
  have hsame : ∀ (Q : Job → Prop) (t : System σ), t.abandoned = s.abandoned →
      t.accepted = s.accepted →
      (∃ extra, t.abandoned = s.abandoned ++ extra)
        ∧ ∀ j ∈ t.accepted, j ∈ s.accepted ∨ Q j := by
    intro Q t h1 h2
    exact ⟨⟨[], by rw [h1]; simp⟩, fun j hj => Or.inl (h2 ▸ hj)⟩
  unfold System.step
  split_ifs
  · exact hsame _ s rfl rfl
  · cases ev with
    | submit job =>
      simp only [System.act]
      rcases Submit_cases s.pool job with ⟨_, h⟩ | ⟨_, _, _, h⟩ | h | h
      · simp only [h]
        exact hsame _ _ rfl rfl
      · simp only [h]
        refine ⟨⟨[], by simp⟩, ?_⟩
        intro j hj
        rcases List.mem_append.mp hj with hj | hj
        · exact Or.inl hj
        · rw [List.mem_singleton.mp hj]
          exact Or.inr rfl
      · simp only [h]
        exact hsame _ _ rfl rfl
      · simp only [h]
        exact hsame _ _ rfl rfl
    | cancel => exact hsame _ _ rfl rfl
    | stop =>
      simp only [System.act]
      rcases Stop_cases s.pool with h | h | h <;> simp only [h] <;> exact hsame _ _ rfl rfl
    | ctxDone i =>
      simp only [System.act]
      split_ifs
      · exact hsame _ _ (hworker s i .ctxDone).1 (hworker s i .ctxDone).2
      · exact hsame _ _ rfl rfl
    | tick i => exact hsame _ _ (hworker s i .tick).1 (hworker s i .tick).2
    | recv i =>
      simp only [System.act]
      cases hw : s.workers[i]? with
      | none => exact hsame _ _ rfl rfl
      | some w =>
        simp only
        by_cases hret : w.returned = true
        · simp only [hret, if_true]
          exact hsame _ _ rfl rfl
        · simp only [hret, Bool.false_eq_true, if_false]
          cases hq : s.pool.jobs.buf with
          | nil =>
            by_cases hcl : s.pool.jobs.closed = true
            · simp only [hcl, if_true]
              exact hsame _ _ (hworker s i .recvClosed).1 (hworker s i .recvClosed).2
            · simp only [hcl, Bool.false_eq_true, if_false]
              exact hsame _ _ rfl rfl
          | cons job rest =>
            exact hsame _ _
              (hworker
                { s with pool := { s.pool with jobs := { s.pool.jobs with buf := rest } } } i
                (.recv job)).1
              (hworker
                { s with pool := { s.pool with jobs := { s.pool.jobs with buf := rest } } } i
                (.recv job)).2
    | timer k =>
      simp only [System.act]
      cases hk : s.timers[k]? with
      | none => exact hsame _ _ rfl rfl
      | some jd =>
        obtain ⟨job, d⟩ := jd
        simp only
        rcases Submit_cases s.pool job with ⟨_, h⟩ | ⟨_, _, _, h⟩ | h | h
        · simp only [h]
          exact ⟨⟨[job], rfl⟩, fun j hj => Or.inl hj⟩
        · simp only [h]
          exact hsame _ _ rfl rfl
        · simp only [h]
          exact hsame _ _ rfl rfl
        · simp only [h]
          exact hsame _ _ rfl rfl
    | timerDone k =>
      simp only [System.act]
      split_ifs
      · cases hk : s.timers[k]? with
        | none => exact hsame _ _ rfl rfl
        | some jd => exact ⟨⟨[jd.1], rfl⟩, fun j hj => Or.inl hj⟩
      · exact hsame _ _ rfl rfl

theorem logs_run {σ : Type} (evs : List SysEvent) (s : System σ) :
    (∃ extra, (s.run evs).abandoned = s.abandoned ++ extra)
      ∧ ∀ j ∈ (s.run evs).accepted, j ∈ s.accepted ∨ SysEvent.submit j ∈ evs := by
  induction evs generalizing s with
  | nil => exact ⟨⟨[], by simp [System.run]⟩, fun j hj => Or.inl hj⟩
  | cons ev evs ih =>
    obtain ⟨⟨e1, h1⟩, h2⟩ := logs_step s ev
    obtain ⟨⟨e2, h3⟩, h4⟩ := ih (s.step ev)
    refine ⟨⟨e1 ++ e2, ?_⟩, ?_⟩
    · show ((s.step ev).run evs).abandoned = _
      rw [h3, h1, List.append_assoc]
    · intro j hj
      rcases h4 j hj with h | h
      · rcases h2 j h with h | h
        · exact Or.inl h
        · exact Or.inr (by rw [h]; exact List.mem_cons_self _ _)
      · exact Or.inr (List.mem_cons_of_mem _ h)

/-- The failures left to fresh jobs: `m + 1` each. -/
theorem weight_fresh (m : Nat) (hm : 1 ≤ m) (P : Record → Bool) (js : List Job)
    (h : ∀ j ∈ js, P (toRecord j) = true → j.Attempts = 0) :
    weight (m : Int) P js = js.countP (fun j => P (toRecord j)) * (m + 1) := by
  induction js with
  | nil => simp [weight]
  | cons j js ih =>
    have ih2 := ih (fun x hx => h x (List.mem_cons_of_mem _ hx))
    by_cases hP : P (toRecord j) = true
    · have h0 := h j (List.mem_cons_self _ _) hP
      have hfl : failuresLeft (m : Int) j = m + 1 := by
        simp only [failuresLeft, h0]
        have : ¬ ((0 : Int) ≥ (m : Int)) := by omega
        simp only [this, if_false]
        omega
      simp only [weight, hP, if_true, List.countP_cons_of_pos, hfl, ih2]
      ring
    · simp only [Bool.not_eq_true] at hP
      simp [weight, hP, ih2]

theorem running_Start {σ : Type} (processor : Processor σ) (o : Options) (sink : σ) :
    Running (System.Start (builtPool processor o) sink) := by
  obtain ⟨hwc, hjb, _, _, _⟩ := withDefaults_fields o
  refine ⟨rfl, rfl, rfl, rfl, ?_, rfl, ?_, ?_⟩
  · intro w hw
    simp only [System.Start] at hw
    rw [List.eq_of_mem_replicate hw]
  · show 0 < (withDefaults o).JobBuffer.toNat
    rw [hjb]
    split_ifs <;> omega
  · show 0 < (List.replicate (withDefaults o).WorkerCount.toNat _).length
    rw [List.length_replicate, hwc]
    split_ifs <;> omega

theorem failing_builtPool {σ : Type} (processor : Processor σ) (o : Options) (m : Nat)
    (hm : 1 ≤ m) (hmo : o.MaxRetries = (m : Int)) (hint : (m : Int) < 2 ^ 63)
    (hfail : ∀ s rs, (processor.ProcessBatch s rs).2 ≠ none) :
    Failing (builtPool processor o) m := by
  refine ⟨?_, hint, hfail⟩
  show (withDefaults o).MaxRetries = (m : Int)
  rw [(withDefaults_fields o).2.2.2.2, hmo]
  have : (0 : Int) < (m : Int) := by omega
  simp [this]

/-- Once no job is left in the pool, nothing more is handed to the sink unless the source
submits again: what was abandoned stays abandoned. -/
theorem quiet_forever {σ : Type} (m : Nat) (P : Record → Bool) (s : System σ)
    (hB : Balanced m P s) (hlive : s.live = []) (more : List SysEvent)
    (hmore : ∀ j, SysEvent.submit j ∉ more) :
    handed P (s.run more).trace = handed P s.trace
      ∧ (errorCauses (s.run more).trace).length
          = ((batches (s.run more).trace).flatten).length := by
  have hB2 := balanced_run m P more s hB (fun j hj => absurd hj (hmore j))
  have hA2 := accepted_run (m : Int) P more s (fun j hj => absurd hj (hmore j))
  obtain ⟨extra, hab⟩ := (logs_run more s).1
  have hmono := handed_mono_run P more s
  have hbal := hB.balance
  have hbal2 := hB2.balance
  rw [hlive] at hbal
  rw [hA2, hab, weight_append] at hbal2
  simp only [weight, Nat.add_zero] at hbal
  exact ⟨by omega, hB2.errs⟩

theorem sameRecord_eq_true (job : Job) (r : Record) :
    sameRecord job r = true ↔ r = toRecord job := by
  simp [sameRecord]

theorem sameRecord_eq_false (job : Job) (r : Record) :
    sameRecord job r = false ↔ r ≠ toRecord job := by
  simp [sameRecord]

/-- C2 (the exact count needs a pool that is neither cancelled nor stopped).  A
pool returned by `NewPool` with `MaxRetries = m >= 1`, a sink that fails every batch, and
any sequence of events of the started pool: submissions by the source (of Go-int
`Attempts`, and with `Attempts = 0` whenever they carry the record of `job`),
cancellation, `Stop`, and the steps of workers and retry goroutines, in any order.  With
`n` the number of times `Submit` accepted `job` (1 for a job submitted once):

* the job was handed to the sink, and so passed to `handleFailure`, at most `n * (m+1)`
  times, and `OnError` was called once for every record of every batch;
* the count is exactly `n * (m+1)` exactly when the job is nowhere in the pool (not in the
  queue, not in a buffer, not waiting for its re-submission) and was not abandoned by a
  goroutine that ended on `ctx.Done()` or on a `Submit` that returned false;
* once the count is `n * (m+1)` it stays so and the job is never in the queue again,
  whatever happens next, unless the source submits the same record anew;
* if the context was not cancelled and `Stop` was not called, no job was abandoned, and
  the workers and retry goroutines can finish by steps of their own, leaving the pool idle
  with the job handed over exactly `n * (m+1)` times. -/
theorem C2_retry_cap {σ : Type} (limit : Nat) (processor : Processor σ) (o : Options)
    (p : Pool σ) (hp : NewPool limit processor o = .ret p)
    (m : Nat) (hm : 1 ≤ m) (hmo : o.MaxRetries = (m : Int)) (hint : (m : Int) < 2 ^ 63)
    (hfail : ∀ s rs, (processor.ProcessBatch s rs).2 ≠ none)
    (sink : σ) (job : Job) (evs : List SysEvent)
    (hints : ∀ j, SysEvent.submit j ∈ evs → -(2 : Int) ^ 63 ≤ j.Attempts)
    (hfresh : ∀ j, SysEvent.submit j ∈ evs → toRecord j = toRecord job → j.Attempts = 0) :
    handed (sameRecord job) ((System.Start p sink).run evs).trace
        ≤ submissions job ((System.Start p sink).run evs).accepted * (m + 1)
      ∧ (errorCauses ((System.Start p sink).run evs).trace).length
          = ((batches ((System.Start p sink).run evs).trace).flatten).length
      ∧ (handed (sameRecord job) ((System.Start p sink).run evs).trace
            = submissions job ((System.Start p sink).run evs).accepted * (m + 1)
          ↔ ∀ j ∈ ((System.Start p sink).run evs).live
                ++ ((System.Start p sink).run evs).abandoned, toRecord j ≠ toRecord job)
      ∧ (∀ more : List SysEvent,
          (∀ j, SysEvent.submit j ∈ more →
            -(2 : Int) ^ 63 ≤ j.Attempts ∧ toRecord j ≠ toRecord job) →
          handed (sameRecord job) ((System.Start p sink).run evs).trace
            = submissions job ((System.Start p sink).run evs).accepted * (m + 1) →
          handed (sameRecord job) (((System.Start p sink).run evs).run more).trace
              = submissions job ((System.Start p sink).run evs).accepted * (m + 1)
            ∧ ∀ j ∈ (((System.Start p sink).run evs).run more).live,
                toRecord j ≠ toRecord job)
      ∧ ((∀ ev ∈ evs, ev.keepsRunning = true) →
          ((System.Start p sink).run evs).abandoned = []
            ∧ ∃ more : List SysEvent, (∀ ev ∈ more, ev.internal = true)
                ∧ (((System.Start p sink).run evs).run more).idle
                ∧ handed (sameRecord job) (((System.Start p sink).run evs).run more).trace
                    = submissions job ((System.Start p sink).run evs).accepted * (m + 1)) := by
  obtain ⟨_, rfl⟩ := (NewPool_ret_iff limit processor o p).mp hp
  have hF := failing_builtPool processor o m hm hmo hint hfail
  have hB := balanced_run m (sameRecord job) evs _
    (balanced_Start m (sameRecord job) _ hF rfl sink) hints
  have hlogs := logs_run evs (System.Start (builtPool processor o) sink)
  generalize hs : (System.Start (builtPool processor o) sink).run evs = s at hB hlogs ⊢
  have hacc : ∀ j ∈ s.accepted, sameRecord job (toRecord j) = true → j.Attempts = 0 := by
    intro j hj hP
    rcases hlogs.2 j hj with h | h
    · simp [System.Start] at h
    · exact hfresh j h ((sameRecord_eq_true job _).mp hP)
  have hW : weight (m : Int) (sameRecord job) s.accepted = submissions job s.accepted * (m + 1) :=
    weight_fresh m hm (sameRecord job) s.accepted hacc
  have hbal := hB.balance
  rw [hW] at hbal
  refine ⟨by omega, hB.errs, ?_, ?_, ?_⟩
  · constructor
    · intro h j hj
      have h1 : weight (m : Int) (sameRecord job) s.live = 0 := by omega
      have h2 : weight (m : Int) (sameRecord job) s.abandoned = 0 := by omega
      rcases List.mem_append.mp hj with hj | hj
      · exact (sameRecord_eq_false job _).mp ((weight_eq_zero_iff _ _ _).mp h1 j hj)
      · exact (sameRecord_eq_false job _).mp ((weight_eq_zero_iff _ _ _).mp h2 j hj)
    · intro h
      have h1 : weight (m : Int) (sameRecord job) s.live = 0 :=
        (weight_eq_zero_iff _ _ _).mpr fun j hj =>
          (sameRecord_eq_false job _).mpr (h j (List.mem_append_left _ hj))
      have h2 : weight (m : Int) (sameRecord job) s.abandoned = 0 :=
        (weight_eq_zero_iff _ _ _).mpr fun j hj =>
          (sameRecord_eq_false job _).mpr (h j (List.mem_append_right _ hj))
      omega
  · intro more hmore hdone
    have hB2 := balanced_run m (sameRecord job) more s hB (fun j hj => (hmore j hj).1)
    have hA2 := accepted_run (m : Int) (sameRecord job) more s
      (fun j hj => (sameRecord_eq_false job _).mpr (hmore j hj).2)
    have hmono := handed_mono_run (sameRecord job) more s
    have hbal2 := hB2.balance
    rw [hA2, hW] at hbal2
    refine ⟨by omega, ?_⟩
    intro j hj
    have h1 : weight (m : Int) (sameRecord job) (s.run more).live = 0 := by omega
    exact (sameRecord_eq_false job _).mp ((weight_eq_zero_iff _ _ _).mp h1 j hj)
  · intro hkeep
    have hR : Running s := by
      rw [← hs]
      exact running_run evs _ (running_Start processor o sink) hkeep
    have hBT : Balanced m (fun _ => true) s := by
      rw [← hs]
      exact balanced_run m (fun _ => true) evs _
        (balanced_Start m (fun _ => true) _ hF rfl sink) hints
    obtain ⟨more, hall, hidle⟩ := drain m (s.work (m : Int)) s hR hBT (le_refl _)
    have hnosub : ∀ j, SysEvent.submit j ∈ more → False := by
      intro j hj
      have := hall _ hj
      simp [SysEvent.internal] at this
    have hkeep2 : ∀ ev ∈ more, ev.keepsRunning = true := by
      intro ev hev
      have := hall ev hev
      cases ev <;> simp_all [SysEvent.internal, SysEvent.keepsRunning]
    have hB2 := balanced_run m (sameRecord job) more s hB (fun j hj => (hnosub j hj).elim)
    have hA2 := accepted_run (m : Int) (sameRecord job) more s
      (fun j hj => (hnosub j hj).elim)
    have hR2 := running_run more s hR hkeep2
    have hbal2 := hB2.balance
    rw [hA2, hW, live_of_idle _ hidle, hR2.nothingLost] at hbal2
    simp only [weight, Nat.add_zero] at hbal2
    exact ⟨hR.nothingLost, more, hall, hidle, hbal2⟩

/-- C2 as stated fails once the context is cancelled or `Stop` is called.  `MaxRetries =
2`, one worker, a sink that fails every batch, a job submitted with `Attempts = 0` and
accepted.  The worker receives the job and flushes on its tick: first failure, and the
goroutine of line 199 waits.  In the first run the context is cancelled and the goroutine
takes `case <-ctx.Done(): return` (line 201); in the second `Stop` is called and the
`p.Submit(job)` of the goroutine returns false.  Either way the pool is idle and the job
is nowhere in it.  It was handed to the sink once and `OnError` was called once, not three
times, and whatever the pool does from here on, that stays so. -/
theorem C2_cancelled_retry_is_abandoned :
    NewPool chanLimit64 failingSink twoRetries = .ret (builtPool failingSink twoRetries)
      ∧ (builtPool failingSink twoRetries).opts.MaxRetries = 2
      ∧ (∀ s rs, (failingSink.ProcessBatch s rs).2 ≠ none)
      ∧ (exampleJob 7).Attempts = 0
      ∧ cancelledRun.accepted = [exampleJob 7]
      ∧ cancelledRun.idle
      ∧ cancelledRun.abandoned = [{ exampleJob 7 with Attempts := 1 }]
      ∧ (∀ more : List SysEvent, (∀ j, SysEvent.submit j ∉ more) →
          handed (sameRecord (exampleJob 7)) (cancelledRun.run more).trace = 1
            ∧ (errorCauses (cancelledRun.run more).trace).length = 1
            ∧ handed (sameRecord (exampleJob 7)) (cancelledRun.run more).trace ≠ 2 + 1)
      ∧ stoppedRun.accepted = [exampleJob 7]
      ∧ stoppedRun.idle
      ∧ stoppedRun.abandoned = [{ exampleJob 7 with Attempts := 1 }]
      ∧ ∀ more : List SysEvent, (∀ j, SysEvent.submit j ∉ more) →
          handed (sameRecord (exampleJob 7)) (stoppedRun.run more).trace = 1
            ∧ (errorCauses (stoppedRun.run more).trace).length = 1
            ∧ handed (sameRecord (exampleJob 7)) (stoppedRun.run more).trace ≠ 2 + 1 := by
  have hfails : ∀ (s : Unit) (rs : List Record), (failingSink.ProcessBatch s rs).2 ≠ none :=
    fun _ _ => by simp [failingSink]
  have hF : Failing (builtPool failingSink twoRetries) 2 :=
    failing_builtPool _ _ 2 (by decide) rfl (by decide) hfails
  have hB1 : ∀ P, Balanced 2 P cancelledRun := fun P =>
    balanced_run 2 P _ _ (balanced_Start 2 P _ hF rfl ()) (by
      intro j hj
      simp at hj
      rw [hj]
      decide)
  have hB2 : ∀ P, Balanced 2 P stoppedRun := fun P =>
    balanced_run 2 P _ _ (balanced_Start 2 P _ hF rfl ()) (by
      intro j hj
      simp at hj
      rw [hj]
      decide)
  have hi1 : cancelledRun.idle := ⟨by decide, by decide, by decide⟩
  have hi2 : stoppedRun.idle := ⟨by decide, by decide, by decide⟩
  refine ⟨(NewPool_ret_iff _ _ _ _).mpr ⟨by decide, rfl⟩, by decide, hfails, rfl, by decide,
    hi1, by decide, ?_, by decide, hi2, by decide, ?_⟩
  · intro more hmore
    have h1 := quiet_forever 2 _ cancelledRun (hB1 (sameRecord (exampleJob 7)))
      (live_of_idle _ hi1) more hmore
    have h2 := quiet_forever 2 _ cancelledRun (hB1 (fun _ => true))
      (live_of_idle _ hi1) more hmore
    have h3 : handed (sameRecord (exampleJob 7)) cancelledRun.trace = 1 := by decide
    have h4 : handed (fun _ => true) cancelledRun.trace = 1 := by decide
    rw [h3] at h1
    rw [h4] at h2
    exact ⟨h1.1, by rw [h2.2, ← handed_true, h2.1], by rw [h1.1]; decide⟩
  · intro more hmore
    have h1 := quiet_forever 2 _ stoppedRun (hB2 (sameRecord (exampleJob 7)))
      (live_of_idle _ hi2) more hmore
    have h2 := quiet_forever 2 _ stoppedRun (hB2 (fun _ => true))
      (live_of_idle _ hi2) more hmore
    have h3 : handed (sameRecord (exampleJob 7)) stoppedRun.trace = 1 := by decide
    have h4 : handed (fun _ => true) stoppedRun.trace = 1 := by decide
    rw [h3] at h1
    rw [h4] at h2
    exact ⟨h1.1, by rw [h2.2, ← handed_true, h2.1], by rw [h1.1]; decide⟩

/-- C2 for `MaxRetries = 2` on a full run without cancellation: the job is
submitted, and three rounds of receive and tick, with the re-submission between them, hand
it to the failing sink three times; then it is nowhere in the pool. -/
theorem C2_retry_cap_witness :
    NewPool chanLimit64 failingSink twoRetries = .ret (builtPool failingSink twoRetries)
      ∧ submissions (exampleJob 7)
          ((System.Start (builtPool failingSink twoRetries) ()).run
            [.submit (exampleJob 7), .recv 0, .tick 0, .timer 0, .recv 0, .tick 0, .timer 0,
              .recv 0, .tick 0]).accepted = 1
      ∧ ((System.Start (builtPool failingSink twoRetries) ()).run
            [.submit (exampleJob 7), .recv 0, .tick 0, .timer 0, .recv 0, .tick 0, .timer 0,
              .recv 0, .tick 0]).live = []
      ∧ handed (sameRecord (exampleJob 7))
          ((System.Start (builtPool failingSink twoRetries) ()).run
            [.submit (exampleJob 7), .recv 0, .tick 0, .timer 0, .recv 0, .tick 0, .timer 0,
              .recv 0, .tick 0]).trace = 3
      ∧ (errorCauses
          ((System.Start (builtPool failingSink twoRetries) ()).run
            [.submit (exampleJob 7), .recv 0, .tick 0, .timer 0, .recv 0, .tick 0, .timer 0,
              .recv 0, .tick 0]).trace).length = 3 :=
  have h := C2_retry_cap chanLimit64 failingSink twoRetries (builtPool failingSink twoRetries)
    ((NewPool_ret_iff _ _ _ _).mpr ⟨by decide, rfl⟩) 2 (by decide) rfl (by decide)
    (fun _ _ => by simp [failingSink]) () (exampleJob 7)
    [.submit (exampleJob 7), .recv 0, .tick 0, .timer 0, .recv 0, .tick 0, .timer 0,
      .recv 0, .tick 0]
    (by
      intro j hj
      simp at hj
      rw [hj]
      decide)
    (by
      intro j hj _
      simp at hj
      rw [hj]
      rfl)
  ⟨(NewPool_ret_iff _ _ _ _).mpr ⟨by decide, rfl⟩, by decide, by decide,
    (h.2.2.1.mpr (by decide)).trans (by decide), h.2.1.trans (by decide)⟩

end Worker
